import Mathlib

/-!
Verification of the Financial-Planner accounting frontend and of the
spec-described accounting core (journal store, FIFO lot engine, corporate
action processor).  Amounts and quantities are modelled as exact rationals
(`ℚ`); the JavaScript sources compute with IEEE-754 doubles, which this
embedding idealises as exact arithmetic.

Definitions come first, theorems afterwards.
-/

/-! ## Transaction modal (src/unnamed/part_000, TransactionModal)

Shallow embedding of the transaction-entry modal: its list of draft lines,
the `addLine` / `removeLine` / `updateLine` handlers, the debit/credit
totals, the `isBalanced` check and the `handleSubmit` gate. -/

namespace Modal

inductive DrCr where
  | DR
  | CR
deriving DecidableEq, Repr

/-- One draft line of the modal: `{ account_id, dr_cr, amount }`. -/
structure ModalLine where
  account_id : Nat
  dr_cr : DrCr
  amount : ℚ
deriving DecidableEq, Repr

/-- Initial `lines` state: one DR and one CR line, account 0, amount 0. -/
def initialLines : List ModalLine :=
  [⟨0, DrCr.DR, 0⟩, ⟨0, DrCr.CR, 0⟩]

/-- `addLine` appends a fresh default line. -/
def addLine (ls : List ModalLine) : List ModalLine :=
  ls ++ [⟨0, DrCr.DR, 0⟩]

/-- `removeLine index` filters out the line at `index`, but only when more
than two lines are present. -/
def removeLine (i : Nat) (ls : List ModalLine) : List ModalLine :=
  if 2 < ls.length then ls.eraseIdx i else ls

/-- `getTotalDebits`: sum of the amounts of the DR lines. -/
def getTotalDebits (ls : List ModalLine) : ℚ :=
  ((ls.filter (fun l => l.dr_cr == DrCr.DR)).map (fun l => l.amount)).sum

/-- `getTotalCredits`: sum of the amounts of the CR lines. -/
def getTotalCredits (ls : List ModalLine) : ℚ :=
  ((ls.filter (fun l => l.dr_cr == DrCr.CR)).map (fun l => l.amount)).sum

/-- `isBalanced`: the totals agree within the 0.01 epsilon. -/
def isBalanced (ls : List ModalLine) : Bool :=
  decide (|getTotalDebits ls - getTotalCredits ls| < 1/100)

/-- The payload `handleSubmit` sends to `transactionsApi.create`. -/
structure CreateRequest where
  date : String
  memo : String
  auto_post : Bool
  lines : List ModalLine
deriving DecidableEq, Repr

/-- Outcome of `handleSubmit`: either an error message is set and no API
call is made, or the create request is issued. -/
inductive SubmitOutcome where
  | rejected (msg : String)
  | submitted (req : CreateRequest)
deriving DecidableEq, Repr

/-- `handleSubmit`: rejects when `isBalanced` fails, then when some line has
no account selected; otherwise issues the create request (type TRANSFER,
`auto_post` from the checkbox). -/
def handleSubmit (date memo : String) (postImmediately : Bool)
    (ls : List ModalLine) : SubmitOutcome :=
  if isBalanced ls = false then
    SubmitOutcome.rejected "Transaction must be balanced (Total Debits = Total Credits)"
  else if ls.any (fun l => l.account_id == 0) then
    SubmitOutcome.rejected "Please select an account for all lines"
  else
    SubmitOutcome.submitted ⟨date, memo, postImmediately, ls⟩

/-- States of the `lines` list reachable from the initial state by the
modal's handlers.  `update` over-approximates `updateLine` (which replaces
the line at an index by a field-updated copy) by allowing any replacement
line at any index. -/
inductive ModalReach : List ModalLine → Prop where
  | init : ModalReach initialLines
  | add {ls} : ModalReach ls → ModalReach (addLine ls)
  | remove {ls} (i : Nat) : ModalReach ls → ModalReach (removeLine i ls)
  | update {ls} (i : Nat) (l : ModalLine) : ModalReach ls → ModalReach (ls.set i l)

end Modal

/-! ## Trade entry form (src/frontend/src/pages/Settings.tsx, CreateTradeForm)

Shallow embedding of the trade form state, the `handleSubmit` validation
chain (backed by `useFormState.setFieldError`, which only updates the
`errors` record), and the trade-summary display. -/

namespace Trade

inductive TrSide where
  | BUY
  | SELL
deriving DecidableEq, Repr

/-- The `formData` of `CreateTradeForm` (a `TradeRequest`). -/
structure TForm where
  instrument_id : Nat
  account_id : Nat
  side : TrSide
  quantity : ℚ
  price : ℚ
  fees : ℚ
  date : String
  reference : String
deriving DecidableEq, Repr

/-- The field errors `handleSubmit` can set (the other form fields never
receive an error in this handler). -/
structure TErrors where
  instrument_id : Option String
  account_id : Option String
  quantity : Option String
  price : Option String
deriving DecidableEq, Repr

/-- The component state touched by `handleSubmit`: the form data and the
error record of `useFormState`. -/
structure TState where
  form : TForm
  errors : TErrors
deriving DecidableEq, Repr

/-- Fields validated by `handleSubmit`, in source order. -/
inductive TField where
  | instrumentId
  | accountId
  | quantityF
  | priceF
deriving DecidableEq, Repr

/-- `setFieldError` for one of the four validated fields: updates only that
error entry. -/
def setErr (fld : TField) (msg : String) (e : TErrors) : TErrors :=
  match fld with
  | TField.instrumentId => { e with instrument_id := some msg }
  | TField.accountId => { e with account_id := some msg }
  | TField.quantityF => { e with quantity := some msg }
  | TField.priceF => { e with price := some msg }

/-- The message `handleSubmit` attaches to each failed validation. -/
def errMsgOf : TField → String
  | TField.instrumentId => "Please select an instrument"
  | TField.accountId => "Please select an account"
  | TField.quantityF => "Quantity must be greater than 0"
  | TField.priceF => "Price must be greater than 0"

/-- The condition whose failure makes `handleSubmit` flag the field. -/
def violated (fld : TField) (f : TForm) : Prop :=
  match fld with
  | TField.instrumentId => f.instrument_id = 0
  | TField.accountId => f.account_id = 0
  | TField.quantityF => f.quantity ≤ 0
  | TField.priceF => f.price ≤ 0

/-- All four validation conditions hold. -/
def validTrade (f : TForm) : Prop :=
  f.instrument_id ≠ 0 ∧ f.account_id ≠ 0 ∧ 0 < f.quantity ∧ 0 < f.price

/-- `handleSubmit` of the trade form: runs the four checks in source order;
the first failure sets that field's error and returns without an API call
(`none`); when all pass, the `createTrade` request is issued with the form
data (`some f`).  The form data itself is never modified. -/
def submitTrade (st : TState) : TState × Option TForm :=
  if st.form.instrument_id = 0 then
    (⟨st.form, setErr TField.instrumentId (errMsgOf TField.instrumentId) st.errors⟩, none)
  else if st.form.account_id = 0 then
    (⟨st.form, setErr TField.accountId (errMsgOf TField.accountId) st.errors⟩, none)
  else if st.form.quantity ≤ 0 then
    (⟨st.form, setErr TField.quantityF (errMsgOf TField.quantityF) st.errors⟩, none)
  else if st.form.price ≤ 0 then
    (⟨st.form, setErr TField.priceF (errMsgOf TField.priceF) st.errors⟩, none)
  else
    (st, some st.form)

/-- Total Value of the trade summary: `quantity * price`. -/
def totalValue (f : TForm) : ℚ := f.quantity * f.price

/-- Total Cost of the trade summary:
`quantity * price + (side == BUY ? fees : -fees)`. -/
def totalCost (f : TForm) : ℚ :=
  f.quantity * f.price + (if f.side = TrSide.BUY then f.fees else -f.fees)

/-- The trade-summary block: rendered only when `quantity > 0 && price > 0`,
showing (Total Value, Fees, Total Cost).  The `toFixed(2)` string rendering
of each rational is not modelled. -/
def tradeSummary (f : TForm) : Option (ℚ × ℚ × ℚ) :=
  if 0 < f.quantity ∧ 0 < f.price then
    some (totalValue f, f.fees, totalCost f)
  else
    none

end Trade

/-! ## Transactions list actions (src/frontend/src/pages/Settings.tsx)

The per-row action buttons: the post button is rendered only for draft (or
status-less) transactions, while the delete button is rendered for every
transaction, and `handleDelete` issues the API delete call for whatever row
it is clicked on. -/

namespace TxList

inductive RowAction where
  | postBtn
  | deleteBtn
deriving DecidableEq, Repr

/-- Action buttons rendered for a transaction with the given `status`
(lower-case string as delivered by the API, `none` when absent). -/
def rowActions (status : Option String) : List RowAction :=
  (if status = some "draft" ∨ status = none then [RowAction.postBtn] else [])
    ++ [RowAction.deleteBtn]

end TxList

/-! ## Journal store (spec section 4.1) -/

namespace Journal

inductive TStatus where
  | draft
  | posted
deriving DecidableEq, Repr

/-- A journal transaction, reduced to the data the delete rule needs. -/
structure JTxn where
  id : Nat
  date : String
  memo : String
  status : TStatus
deriving DecidableEq, Repr

inductive JError where
  | invalidReference
  | notDraft
deriving DecidableEq, Repr

/-- Modelled from the spec: the backend Journal Store (FastAPI service and
`DELETE /api/transactions/id` handler) is not under src/; only its frontend
callers and docs are.  Per spec section 4.1, `delete(transaction_id)` is
"only legal while DRAFT": deleting a POSTED transaction fails and leaves
the store unchanged; deleting a DRAFT removes it. -/
def deleteTxn (tid : Nat) (store : List JTxn) : Except JError (List JTxn) :=
  match store.find? (fun t => t.id == tid) with
  | none => Except.error JError.invalidReference
  | some t =>
      if t.status = TStatus.posted then
        Except.error JError.notDraft
      else
        Except.ok (store.filter (fun t2 => !(t2.id == tid)))

end Journal

/-! ## Accounting core (spec sections 4.2 to 4.4)

Modelled from the spec: the backend accounting core (the FastAPI Lot
Engine, Corporate Action Processor and Position Reconciler) is not under
src/; only its frontend callers and the docs are.  The definitions below
follow the words of spec sections 4.2, 4.3, 4.4 and 8: FIFO lots ordered by
open_date with lot id as tie-break, `close_quantity` with pro-rata realized
P&L and an `InsufficientQuantity` failure, split / cash-dividend corporate
actions processed exactly once, `unpost` reversing recorded consumption,
and the reconciliation of open-lot quantity against a replay of posted
trade lines. -/

namespace Core

inductive Side where
  | BUY
  | SELL
deriving DecidableEq, Repr

/-- A cost-basis lot (spec section 3).  A lot is closed exactly when
`quantity_remaining` is zero, so the `closed` flag is derived rather than
stored. -/
structure Lot where
  id : Nat
  instrument : Nat
  account : Nat
  open_date : Nat
  quantity_opened : ℚ
  quantity_remaining : ℚ
  cost_per_unit : ℚ
  cost_total : ℚ
deriving DecidableEq, Repr

/-- A lot is open while some quantity remains. -/
def lotOpen (l : Lot) : Bool := decide (l.quantity_remaining ≠ 0)

/-- The lot belongs to the given instrument+account position. -/
def lotAt (instr acct : Nat) (l : Lot) : Bool :=
  decide (l.instrument = instr ∧ l.account = acct)

/-- A posted trade line together with the consumption metadata the spec
requires the engine to retain for exact reversal (design note: consumption
is recorded as explicit lot id / quantity pairs).  `lotId` is the lot a BUY
opened; `consumed` lists what a SELL took from each lot.  `fromAction` marks
the quantity leg of a corporate-action-generated transaction, which cannot
be unposted independently of its action. -/
structure Txn where
  id : Nat
  instrument : Nat
  account : Nat
  side : Side
  quantity : ℚ
  amount : ℚ
  date : Nat
  fromAction : Bool
  lotId : Nat
  consumed : List (Nat × ℚ)
deriving DecidableEq, Repr

/-- Signed quantity of a posted trade line: BUY positive, SELL negative. -/
def signedQty (t : Txn) : ℚ :=
  match t.side with
  | Side.BUY => t.quantity
  | Side.SELL => -t.quantity

/-- The trade line belongs to the given instrument+account position. -/
def txnAt (instr acct : Nat) (t : Txn) : Bool :=
  decide (t.instrument = instr ∧ t.account = acct)

inductive CAKind where
  | SPLIT
  | CASH_DIVIDEND
deriving DecidableEq, Repr

/-- A corporate action (spec section 3), restricted to the two kinds the
claims exercise.  `factor` is the split ratio r. -/
structure CorporateAction where
  id : Nat
  instrument : Nat
  kind : CAKind
  factor : ℚ
  cash_per_share : ℚ
  date : Nat
  processed : Bool
deriving DecidableEq, Repr

inductive CoreError where
  | unbalancedTransaction
  | invalidReference
  | insufficientQuantity
  | dependentStateExists
  | alreadyProcessed
  | reconciliationMismatch
deriving DecidableEq, Repr

/-- The core's mutable state: lot projection, posted trade lines, corporate
actions, and fresh-id counters. -/
structure CoreState where
  lots : List Lot
  txns : List Txn
  actions : List CorporateAction
  nextLotId : Nat
  nextTxnId : Nat
  nextActionId : Nat
deriving DecidableEq, Repr

def initState : CoreState := ⟨[], [], [], 1, 1, 1⟩

/-- Total remaining quantity of a list of lots. -/
def sumRem (ls : List Lot) : ℚ :=
  (ls.map (fun l => l.quantity_remaining)).sum

/-- Total remaining quantity held at one instrument+account position. -/
def sumRemAt (instr acct : Nat) (ls : List Lot) : ℚ :=
  sumRem (ls.filter (lotAt instr acct))

/-- Net (BUY minus SELL) quantity replayed from posted trade lines for one
instrument+account position. -/
def netAt (instr acct : Nat) (ts : List Txn) : ℚ :=
  ((ts.filter (txnAt instr acct)).map signedQty).sum

/-- FIFO order: ascending `open_date`, ties broken by ascending lot id. -/
def lotLE (a b : Lot) : Bool :=
  decide (a.open_date < b.open_date ∨ (a.open_date = b.open_date ∧ a.id ≤ b.id))

/-- Ordered insertion for the FIFO sort. -/
def insertLot (l : Lot) : List Lot → List Lot
  | [] => [l]
  | x :: xs => if lotLE l x then l :: x :: xs else x :: insertLot l xs

/-- Insertion sort of lots into FIFO consumption order. -/
def sortLots : List Lot → List Lot
  | [] => []
  | x :: xs => insertLot x (sortLots xs)

/-- Greedy FIFO consumption of `qty` across the given (ordered, open) lots.
Returns the consumption records (lot id, quantity), the updated lots, and
the cost basis of the consumed slices; `none` when the open quantity is
insufficient. -/
def consume : ℚ → List Lot → Option (List (Nat × ℚ) × List Lot × ℚ)
  | qty, [] => if qty = 0 then some ([], [], 0) else none
  | qty, l :: rest =>
      if qty = 0 then some ([], l :: rest, 0)
      else if qty ≤ l.quantity_remaining then
        some ([(l.id, qty)],
          { l with quantity_remaining := l.quantity_remaining - qty } :: rest,
          qty * l.cost_per_unit)
      else
        match consume (qty - l.quantity_remaining) rest with
        | some (recs, rest2, cb) =>
            some ((l.id, l.quantity_remaining) :: recs,
              { l with quantity_remaining := 0 } :: rest2,
              cb + l.quantity_remaining * l.cost_per_unit)
        | none => none

/-- The lot a BUY opens: `cost_per_unit = cost_total / quantity`. -/
def mkLot (id instr acct date : Nat) (qty cost : ℚ) : Lot :=
  ⟨id, instr, acct, date, qty, qty, cost / qty, cost⟩

/-- `close_quantity` (spec section 4.2): selects the open lots of the
position in FIFO order, consumes `qty` across them, and returns the
realized P&L (`proceeds - consumed cost basis`), the full updated lot list,
and the consumption records; fails with `InsufficientQuantity` when the
open quantity is short. -/
def close_quantity (instr acct : Nat) (qty pr : ℚ) (lots : List Lot) :
    Except CoreError (ℚ × List Lot × List (Nat × ℚ)) :=
  let matching := lots.filter (lotAt instr acct)
  let openPart := matching.filter lotOpen
  let closedPart := matching.filter (fun l => !(lotOpen l))
  let others := lots.filter (fun l => !(lotAt instr acct l))
  match consume qty (sortLots openPart) with
  | some (recs, newOpen, cb) =>
      Except.ok (pr - cb, newOpen ++ closedPart ++ others, recs)
  | none => Except.error CoreError.insufficientQuantity

/-- Posting a BUY trade line: opens a fresh lot and records the line.
Non-positive quantities are rejected as invalid lines. -/
def postBuy (instr acct : Nat) (qty cost : ℚ) (date : Nat) (s : CoreState) :
    Except CoreError CoreState :=
  if qty ≤ 0 then Except.error CoreError.invalidReference
  else Except.ok { s with
    lots := s.lots ++ [mkLot s.nextLotId instr acct date qty cost],
    txns := s.txns ++
      [⟨s.nextTxnId, instr, acct, Side.BUY, qty, cost, date, false, s.nextLotId, []⟩],
    nextLotId := s.nextLotId + 1,
    nextTxnId := s.nextTxnId + 1 }

/-- Posting a SELL trade line: closes quantity FIFO and records the line
with its consumption records. -/
def postSell (instr acct : Nat) (qty pr : ℚ) (date : Nat) (s : CoreState) :
    Except CoreError CoreState :=
  if qty ≤ 0 then Except.error CoreError.invalidReference
  else match close_quantity instr acct qty pr s.lots with
  | Except.error e => Except.error e
  | Except.ok (_, newLots, recs) => Except.ok { s with
      lots := newLots,
      txns := s.txns ++
        [⟨s.nextTxnId, instr, acct, Side.SELL, qty, pr, date, false, 0, recs⟩],
      nextTxnId := s.nextTxnId + 1 }

/-- Quantity restored to lot `i` when the given consumption records are
reversed. -/
def restoreFor (cons : List (Nat × ℚ)) (i : Nat) : ℚ :=
  ((cons.filter (fun rq => rq.1 == i)).map (fun rq => rq.2)).sum

/-- Finds the first element satisfying `p` and splits the list around it. -/
def extractP {α : Type} (p : α → Bool) : List α → Option (List α × α × List α)
  | [] => none
  | x :: xs =>
      if p x then some ([], x, xs)
      else match extractP p xs with
        | some (pre, a, suf) => some (x :: pre, a, suf)
        | none => none

/-- `unpost` (spec section 4.1): legal only when no subsequent state
depends on the lots this transaction created or consumed.  A BUY is
reversed by deleting its lot, which must still be whole (untouched by
sells and splits); a SELL is reversed by restoring the recorded
consumption, which must still fit inside the surviving lots; transactions
generated by a corporate action cannot be unposted on their own.  Any
dependency makes it fail with `DependentStateExists`. -/
def unpost (tid : Nat) (s : CoreState) : Except CoreError CoreState :=
  match extractP (fun t => t.id == tid) s.txns with
  | none => Except.error CoreError.invalidReference
  | some (pre, t, suf) =>
      if t.fromAction then Except.error CoreError.dependentStateExists
      else match t.side with
        | Side.BUY =>
            match extractP (fun l => l.id == t.lotId) s.lots with
            | none => Except.error CoreError.dependentStateExists
            | some (lpre, l, lsuf) =>
                if l.instrument = t.instrument ∧ l.account = t.account ∧
                    l.quantity_remaining = t.quantity ∧
                    l.quantity_opened = t.quantity then
                  Except.ok { s with lots := lpre ++ lsuf, txns := pre ++ suf }
                else Except.error CoreError.dependentStateExists
        | Side.SELL =>
            if (t.consumed.all fun rq => decide (0 ≤ rq.2)) &&
                decide ((t.consumed.map (fun rq => rq.2)).sum = t.quantity) &&
                (t.consumed.all fun rq =>
                  (s.lots.filter (fun l =>
                    l.id == rq.1 && lotAt t.instrument t.account l)).length == 1) &&
                (s.lots.all fun l =>
                  decide (l.quantity_remaining + restoreFor t.consumed l.id ≤
                    l.quantity_opened)) then
              Except.ok { s with
                lots := s.lots.map (fun l =>
                  { l with quantity_remaining :=
                      l.quantity_remaining + restoreFor t.consumed l.id }),
                txns := pre ++ suf }
            else Except.error CoreError.dependentStateExists

/-- Marks one corporate action as processed. -/
def markProcessed (aid : Nat) (acts : List CorporateAction) :
    List CorporateAction :=
  acts.map (fun a => if a.id == aid then { a with processed := true } else a)

/-- SPLIT applied to one lot: every open lot of the instrument has
`quantity_opened` and `quantity_remaining` multiplied by the ratio and
`cost_per_unit` divided by it; `cost_total` is unchanged. -/
def splitLot (instr : Nat) (f : ℚ) (l : Lot) : Lot :=
  if l.instrument = instr ∧ l.quantity_remaining ≠ 0 then
    { l with quantity_opened := f * l.quantity_opened,
             quantity_remaining := f * l.quantity_remaining,
             cost_per_unit := l.cost_per_unit / f }
  else l

/-- Accounts holding open lots of the instrument. -/
def openAccounts (instr : Nat) (ls : List Lot) : List Nat :=
  ((ls.filter (fun l => decide (l.instrument = instr) && lotOpen l)).map
    (fun l => l.account)).dedup

/-- The quantity leg of the journal entry a SPLIT generates for one
account: it records the share-count adjustment `(r - 1) * held quantity`
(zero-amount, so the generated entry stays balanced), keeping the posted
trade-line replay in step with the scaled lots. -/
def splitAdj (baseId instr : Nat) (f : ℚ) (date : Nat) (ls : List Lot)
    (acct : Nat) : Txn :=
  let d := (f - 1) * sumRemAt instr acct ls
  ⟨baseId, instr, acct, if 0 ≤ d then Side.BUY else Side.SELL, |d|, 0, date,
    true, 0, []⟩

/-- `process(action_id)` (spec section 4.4): fails with `AlreadyProcessed`
on a processed action; a SPLIT with positive ratio scales every open lot of
the instrument and posts the generated adjustment entry, atomically with
marking the action processed; a CASH_DIVIDEND emits a cash/income journal
entry with no trade line and no lot mutation, so only the processed mark is
visible to the lot state. -/
def processAction (aid : Nat) (s : CoreState) : Except CoreError CoreState :=
  match s.actions.find? (fun a => a.id == aid) with
  | none => Except.error CoreError.invalidReference
  | some a =>
      if a.processed then Except.error CoreError.alreadyProcessed
      else match a.kind with
        | CAKind.SPLIT =>
            if 0 < a.factor then
              Except.ok { s with
                lots := s.lots.map (splitLot a.instrument a.factor),
                txns := s.txns ++ (openAccounts a.instrument s.lots).map
                  (splitAdj s.nextTxnId a.instrument a.factor a.date s.lots),
                actions := markProcessed aid s.actions,
                nextTxnId := s.nextTxnId + 1 }
            else Except.error CoreError.invalidReference
        | CAKind.CASH_DIVIDEND =>
            Except.ok { s with actions := markProcessed aid s.actions }

/-- Creates a corporate action in draft state (`processed = false`). -/
def createAction (instr : Nat) (kind : CAKind) (f cash : ℚ) (date : Nat)
    (s : CoreState) : CoreState :=
  { s with
    actions := s.actions ++ [⟨s.nextActionId, instr, kind, f, cash, date, false⟩],
    nextActionId := s.nextActionId + 1 }

/-- The operations a caller can drive the core with. -/
inductive Op where
  | buy (instr acct : Nat) (qty cost : ℚ) (date : Nat)
  | sell (instr acct : Nat) (qty pr : ℚ) (date : Nat)
  | unpostOp (tid : Nat)
  | newAction (instr : Nat) (kind : CAKind) (f cash : ℚ) (date : Nat)
  | processOp (aid : Nat)

/-- Runs one operation. -/
def runOp : Op → CoreState → Except CoreError CoreState
  | Op.buy i acc q c d, s => postBuy i acc q c d s
  | Op.sell i acc q p d, s => postSell i acc q p d s
  | Op.unpostOp tid, s => unpost tid s
  | Op.newAction i k f cash d, s => Except.ok (createAction i k f cash d s)
  | Op.processOp aid, s => processAction aid s

/-- Runs one operation; a failed operation leaves the state unchanged
(all-or-nothing, spec section 4.1). -/
def applyOp (o : Op) (s : CoreState) : CoreState :=
  match runOp o s with
  | Except.ok s2 => s2
  | Except.error _ => s

/-- States reachable from the empty core by any sequence of operations. -/
inductive CoreReach : CoreState → Prop where
  | init : CoreReach initState
  | step (o : Op) {s} : CoreReach s → CoreReach (applyOp o s)

/-- Every lot satisfies `0 ≤ quantity_remaining ≤ quantity_opened`. -/
def LotBounds (s : CoreState) : Prop :=
  ∀ l ∈ s.lots, 0 ≤ l.quantity_remaining ∧
    l.quantity_remaining ≤ l.quantity_opened

/-- For every position, open-lot quantity equals the posted-line replay. -/
def Reconciled (s : CoreState) : Prop :=
  ∀ instr acct, sumRemAt instr acct s.lots = netAt instr acct s.txns

/-- Lot ids are distinct and below the fresh-id counter. -/
def IdsOk (s : CoreState) : Prop :=
  (s.lots.map (fun l => l.id)).Nodup ∧ ∀ l ∈ s.lots, l.id < s.nextLotId

/-- The core invariant maintained by every operation. -/
def CoreInv (s : CoreState) : Prop :=
  LotBounds s ∧ Reconciled s ∧ IdsOk s

/-- The positions mentioned anywhere in the state. -/
def stateKeys (s : CoreState) : List (Nat × Nat) :=
  (s.lots.map (fun l => (l.instrument, l.account)) ++
    s.txns.map (fun t => (t.instrument, t.account))).dedup

/-- `reconcile()` (spec section 4.3): recompute each position's open-lot
quantity and compare it against the posted-line replay. -/
def reconcile (s : CoreState) : Bool :=
  (stateKeys s).all (fun k =>
    sumRemAt k.1 k.2 s.lots == netAt k.1 k.2 s.txns)

end Core

/-! ## Concrete inputs used by counterexamples and witnesses -/

/-- Concrete draft accepted by `isBalanced` with unequal totals:
DR 100.005 against CR 100. -/
def c1Lines : List Modal.ModalLine :=
  [⟨1, Modal.DrCr.DR, 100 + 1/200⟩, ⟨2, Modal.DrCr.CR, 100⟩]

/-- Unbalanced draft whose lines all reference selected (nonzero)
accounts. -/
def c2Lines : List Modal.ModalLine :=
  [⟨1, Modal.DrCr.DR, 100⟩, ⟨2, Modal.DrCr.CR, 50⟩]

/-- A one-transaction journal store holding a posted transaction. -/
def c3Store : List Journal.JTxn :=
  [⟨7, "2024-03-01", "posted txn", Journal.TStatus.posted⟩]

/-- A trade form state with an unselected instrument (everything else
valid). -/
def c9State : Trade.TState :=
  ⟨⟨0, 3, Trade.TrSide.BUY, 10, 5, 1, "2024-01-01", ""⟩, ⟨none, none, none, none⟩⟩

/-- A concrete BUY trade form: quantity 100, price 150, fees 5. -/
def c10Form : Trade.TForm :=
  ⟨2, 3, Trade.TrSide.BUY, 100, 150, 5, "2024-01-01", ""⟩

/-- The spec's FIFO scenario: a lot of 10 units costing 100 opened at t1
and a lot of 10 units costing 120 opened at t2. -/
def c4Lots : List Core.Lot :=
  [⟨1, 1, 1, 1, 10, 10, 10, 100⟩, ⟨2, 1, 1, 2, 10, 10, 12, 120⟩]

/-- The spec's split scenario lot: 10 units, cost_total 1000 (cost_per_unit
100). -/
def c5Lot : Core.Lot := ⟨1, 1, 2, 0, 10, 10, 100, 1000⟩

/-- An unprocessed ratio-2 SPLIT on instrument 1. -/
def c5Act : Core.CorporateAction := ⟨1, 1, Core.CAKind.SPLIT, 2, 0, 3, false⟩

/-- Core state holding the split-scenario lot and action. -/
def c5State : Core.CoreState := ⟨[c5Lot], [], [c5Act], 2, 1, 2⟩

/-- Core state after processing the ratio-2 split. -/
def c5State2 : Core.CoreState := Core.applyOp (Core.Op.processOp 1) c5State

/-- An unprocessed cash dividend action. -/
def c7Act : Core.CorporateAction := ⟨1, 1, Core.CAKind.CASH_DIVIDEND, 0, 5, 3, false⟩

/-- Core state holding one unprocessed corporate action. -/
def c7State : Core.CoreState := ⟨[], [], [c7Act], 1, 1, 2⟩

/-- Core state after the first (successful) `process` call. -/
def c7State2 : Core.CoreState := Core.applyOp (Core.Op.processOp 1) c7State

/-- A reachable core state: buy 10 units, then sell 4 of them. -/
def c6State : Core.CoreState :=
  Core.applyOp (Core.Op.sell 1 2 4 60 5)
    (Core.applyOp (Core.Op.buy 1 2 10 100 1) Core.initState)

/-! # Theorems -/

/-! ## C1 -/

/-- C1 counterexample: `isBalanced` accepts a draft whose debit and credit
totals are not equal (they differ by 0.005 < 0.01), so the program's
balance check is not exact decimal equality. -/
theorem c1_balance_not_exact :
    Modal.isBalanced c1Lines = true ∧
    Modal.getTotalDebits c1Lines ≠ Modal.getTotalCredits c1Lines := by
  constructor
  · simp [Modal.isBalanced, Modal.getTotalDebits, Modal.getTotalCredits, c1Lines]
    rw [abs_lt]
    constructor <;> norm_num
  · simp [Modal.getTotalDebits, Modal.getTotalCredits, c1Lines]

/-- C1 (amended): every draft the modal submits has debit and credit totals
that agree within the 0.01 epsilon of the floating-point `isBalanced`
check; exact equality of the totals is not required. -/
theorem c1_submitted_within_epsilon (date memo : String) (post : Bool)
    (ls : List Modal.ModalLine) (req : Modal.CreateRequest)
    (h : Modal.handleSubmit date memo post ls = Modal.SubmitOutcome.submitted req) :
    |Modal.getTotalDebits ls - Modal.getTotalCredits ls| < 1/100 := by
  by_cases hb : Modal.isBalanced ls = false
  · simp [Modal.handleSubmit, hb] at h
  · have hb2 : Modal.isBalanced ls = true := by
      cases h2 : Modal.isBalanced ls
      · exact absurd h2 hb
      · rfl
    simpa [Modal.isBalanced] using hb2

/-- Witness for `c1_submitted_within_epsilon` at a concrete submitted draft. -/
theorem c1_submitted_within_epsilon_witness :
    |Modal.getTotalDebits [⟨1, Modal.DrCr.DR, 50⟩, ⟨2, Modal.DrCr.CR, 50⟩] -
      Modal.getTotalCredits [⟨1, Modal.DrCr.DR, 50⟩, ⟨2, Modal.DrCr.CR, 50⟩]| < 1/100 :=
  c1_submitted_within_epsilon "2024-01-01" "memo" true
    [⟨1, Modal.DrCr.DR, 50⟩, ⟨2, Modal.DrCr.CR, 50⟩]
    ⟨"2024-01-01", "memo", true, [⟨1, Modal.DrCr.DR, 50⟩, ⟨2, Modal.DrCr.CR, 50⟩]⟩
    (by simp [Modal.handleSubmit, Modal.isBalanced, Modal.getTotalDebits,
      Modal.getTotalCredits])

/-! ## C2 -/

/-- C2 counterexample: a draft whose lines all reference known accounts but
which does not balance is refused by `handleSubmit` (creation does not
succeed), even with `auto_post` unchecked (draft creation). -/
theorem c2_unbalanced_draft_refused :
    Modal.handleSubmit "2024-01-01" "memo" false c2Lines =
      Modal.SubmitOutcome.rejected
        "Transaction must be balanced (Total Debits = Total Credits)" := by
  simp [Modal.handleSubmit, Modal.isBalanced, Modal.getTotalDebits,
    Modal.getTotalCredits, c2Lines]
  norm_num

/-- C2 (amended): transaction creation requires the draft to balance within
the 0.01 epsilon; every draft failing `isBalanced` is rejected with the
balance error and no create request is issued, whether or not it is to be
posted immediately. -/
theorem c2_submit_requires_balance (date memo : String) (post : Bool)
    (ls : List Modal.ModalLine) (h : Modal.isBalanced ls = false) :
    Modal.handleSubmit date memo post ls =
      Modal.SubmitOutcome.rejected
        "Transaction must be balanced (Total Debits = Total Credits)" := by
  simp [Modal.handleSubmit, h]

/-- Witness for `c2_submit_requires_balance` at a concrete unbalanced draft. -/
theorem c2_submit_requires_balance_witness :
    Modal.handleSubmit "2024-02-02" "memo" true c2Lines =
      Modal.SubmitOutcome.rejected
        "Transaction must be balanced (Total Debits = Total Credits)" :=
  c2_submit_requires_balance "2024-02-02" "memo" true c2Lines
    (by simp [Modal.isBalanced, Modal.getTotalDebits, Modal.getTotalCredits,
      c2Lines]; norm_num)

/-! ## C3 -/

/-- C3: deleting is only legal while DRAFT.  For the spec-modelled Journal
Store, deleting a POSTED transaction fails with an error (so the store is
left unchanged); and, as the claim notes, the transaction-list frontend
renders the delete action for every transaction regardless of its status. -/
theorem c3_delete_posted_rejected :
    (∀ (store : List Journal.JTxn) (tid : Nat) (t : Journal.JTxn),
        store.find? (fun t2 => t2.id == tid) = some t →
        t.status = Journal.TStatus.posted →
        Journal.deleteTxn tid store = Except.error Journal.JError.notDraft)
    ∧ (∀ status, TxList.RowAction.deleteBtn ∈ TxList.rowActions status) := by
  constructor
  · intro store tid t hfind hstatus
    simp [Journal.deleteTxn, hfind, hstatus]
  · intro status
    simp [TxList.rowActions]

/-- Witness for `c3_delete_posted_rejected`: a concrete posted transaction
whose delete is rejected, in a list row that still offers the delete
button. -/
theorem c3_delete_posted_rejected_witness :
    Journal.deleteTxn 7 c3Store = Except.error Journal.JError.notDraft ∧
    TxList.RowAction.deleteBtn ∈ TxList.rowActions (some "posted") :=
  ⟨c3_delete_posted_rejected.1 c3Store 7
      ⟨7, "2024-03-01", "posted txn", Journal.TStatus.posted⟩ (by rfl) rfl,
    c3_delete_posted_rejected.2 (some "posted")⟩

/-! ## C8 -/

/-- Erasing an index from a list shortens it by at most one element. -/
theorem length_eraseIdx_ge {α : Type} (l : List α) (i : Nat) :
    l.length - 1 ≤ (l.eraseIdx i).length := by
  induction l generalizing i with
  | nil => simp [List.eraseIdx]
  | cons a t ih =>
      cases i with
      | zero => simp [List.eraseIdx]
      | succ j =>
          have := ih j
          simp only [List.eraseIdx, List.length_cons]
          omega

/-- C8: the modal starts with exactly two lines, and every `lines` state
reachable by any sequence of `addLine` / `removeLine` (and `updateLine`)
calls has at least two lines: `removeLine` only removes a line when more
than two are present. -/
theorem c8_at_least_two_lines :
    Modal.initialLines.length = 2 ∧
    ∀ ls, Modal.ModalReach ls → 2 ≤ ls.length := by
  refine ⟨rfl, ?_⟩
  intro ls h
  induction h with
  | init => decide
  | add h ih =>
      simp only [Modal.addLine, List.length_append, List.length_cons,
        List.length_nil]
      omega
  | @remove ls2 i h ih =>
      unfold Modal.removeLine
      by_cases h2 : 2 < ls2.length
      · rw [if_pos h2]
        have := length_eraseIdx_ge ls2 i
        omega
      · rw [if_neg h2]
        exact ih
  | update i l h ih =>
      simpa using ih

/-- Witness for `c8_at_least_two_lines` at a reachable three-line state. -/
theorem c8_at_least_two_lines_witness :
    2 ≤ (Modal.addLine Modal.initialLines).length :=
  c8_at_least_two_lines.2 (Modal.addLine Modal.initialLines)
    (Modal.ModalReach.add Modal.ModalReach.init)

/-! ## C9 -/

/-- C9: the trade form's `handleSubmit` issues the `createTrade` request
exactly when the instrument and account are selected and quantity and price
are positive; otherwise it performs no API call, leaves the form data
unchanged, and sets the error of the first violated field (only the error
record changes). -/
theorem c9_trade_validation (st : Trade.TState) :
    ((Trade.submitTrade st).2 = some st.form ↔ Trade.validTrade st.form)
    ∧ ((Trade.submitTrade st).1.form = st.form)
    ∧ (¬ Trade.validTrade st.form →
        (Trade.submitTrade st).2 = none ∧
        ∃ fld, Trade.violated fld st.form ∧
          (Trade.submitTrade st).1.errors =
            Trade.setErr fld (Trade.errMsgOf fld) st.errors) := by
  unfold Trade.submitTrade Trade.validTrade
  by_cases h1 : st.form.instrument_id = 0
  · simp only [h1, if_pos rfl]
    refine ⟨by simp [h1], rfl, fun _ => ⟨rfl, Trade.TField.instrumentId, h1, rfl⟩⟩
  · rw [if_neg h1]
    by_cases h2 : st.form.account_id = 0
    · rw [if_pos h2]
      refine ⟨by simp [h2], rfl, fun _ => ⟨rfl, Trade.TField.accountId, h2, rfl⟩⟩
    · rw [if_neg h2]
      by_cases h3 : st.form.quantity ≤ 0
      · rw [if_pos h3]
        refine ⟨by simp [h1, h2, h3, not_lt.mpr h3], rfl,
          fun _ => ⟨rfl, Trade.TField.quantityF, h3, rfl⟩⟩
      · rw [if_neg h3]
        by_cases h4 : st.form.price ≤ 0
        · rw [if_pos h4]
          refine ⟨by simp [h1, h2, h4, not_lt.mpr h4], rfl,
            fun _ => ⟨rfl, Trade.TField.priceF, h4, rfl⟩⟩
        · rw [if_neg h4]
          refine ⟨by simp [h1, h2, lt_of_not_le h3, lt_of_not_le h4], rfl, ?_⟩
          intro hinval
          exact absurd ⟨h1, h2, lt_of_not_le h3, lt_of_not_le h4⟩ hinval

/-- Witness for `c9_trade_validation`: with no instrument selected, no API
call is made and the instrument error is set. -/
theorem c9_trade_validation_witness :
    (Trade.submitTrade c9State).2 = none ∧
    ∃ fld, Trade.violated fld c9State.form ∧
      (Trade.submitTrade c9State).1.errors =
        Trade.setErr fld (Trade.errMsgOf fld) c9State.errors :=
  (c9_trade_validation c9State).2.2 (by intro h; exact h.1 rfl)

/-! ## C10 -/

/-- C10: whenever quantity and price are positive, the trade summary is
displayed, its Total Value equals `quantity * price`, and its Total Cost
equals `quantity * price + fees` for a BUY and `quantity * price - fees`
for a SELL (arithmetic idealised from IEEE-754 doubles to exact rationals;
the two-decimal `toFixed` rendering is not modelled). -/
theorem c10_trade_summary (f : Trade.TForm)
    (hq : 0 < f.quantity) (hp : 0 < f.price) :
    ∃ v c, Trade.tradeSummary f = some (v, f.fees, c) ∧
      v = f.quantity * f.price ∧
      (f.side = Trade.TrSide.BUY → c = v + f.fees) ∧
      (f.side = Trade.TrSide.SELL → c = v - f.fees) := by
  refine ⟨Trade.totalValue f, Trade.totalCost f, ?_, rfl, ?_, ?_⟩
  · simp [Trade.tradeSummary, hq, hp]
  · intro hs
    simp [Trade.totalCost, Trade.totalValue, hs]
  · intro hs
    have hns : f.side ≠ Trade.TrSide.BUY := by
      rw [hs]; intro hcon; cases hcon
    simp [Trade.totalCost, Trade.totalValue, hns]
    ring

/-- Witness for `c10_trade_summary` at a BUY of 100 units at price 150 with
fees 5. -/
theorem c10_trade_summary_witness :
    ∃ v c, Trade.tradeSummary c10Form = some (v, c10Form.fees, c) ∧
      v = c10Form.quantity * c10Form.price ∧
      (c10Form.side = Trade.TrSide.BUY → c = v + c10Form.fees) ∧
      (c10Form.side = Trade.TrSide.SELL → c = v - c10Form.fees) :=
  c10_trade_summary c10Form (by norm_num [c10Form]) (by norm_num [c10Form])

/-! ## Core lemmas: sums, permutations, and the FIFO consume -/

namespace Core

theorem lotAt_iff {instr acct : Nat} {l : Lot} :
    lotAt instr acct l = true ↔ l.instrument = instr ∧ l.account = acct := by
  simp [lotAt]

theorem txnAt_iff {instr acct : Nat} {t : Txn} :
    txnAt instr acct t = true ↔ t.instrument = instr ∧ t.account = acct := by
  simp [txnAt]

theorem sumRem_nil : sumRem [] = 0 := rfl

theorem sumRem_cons (l : Lot) (ls : List Lot) :
    sumRem (l :: ls) = l.quantity_remaining + sumRem ls := by
  simp [sumRem]

theorem sumRem_append (A B : List Lot) :
    sumRem (A ++ B) = sumRem A + sumRem B := by
  simp [sumRem]

theorem sumRemAt_append (instr acct : Nat) (A B : List Lot) :
    sumRemAt instr acct (A ++ B) =
      sumRemAt instr acct A + sumRemAt instr acct B := by
  simp [sumRemAt, List.filter_append, sumRem]

theorem sumRemAt_cons (instr acct : Nat) (l : Lot) (ls : List Lot) :
    sumRemAt instr acct (l :: ls) =
      (if lotAt instr acct l then l.quantity_remaining else 0) +
        sumRemAt instr acct ls := by
  by_cases h : lotAt instr acct l
  · simp [sumRemAt, List.filter_cons, h, sumRem]
  · simp [sumRemAt, List.filter_cons, h, sumRem]

theorem netAt_append (instr acct : Nat) (A B : List Txn) :
    netAt instr acct (A ++ B) = netAt instr acct A + netAt instr acct B := by
  simp [netAt, List.filter_append]

theorem netAt_cons (instr acct : Nat) (t : Txn) (ts : List Txn) :
    netAt instr acct (t :: ts) =
      (if txnAt instr acct t then signedQty t else 0) + netAt instr acct ts := by
  by_cases h : txnAt instr acct t
  · simp [netAt, List.filter_cons, h]
  · simp [netAt, List.filter_cons, h]

theorem sumRem_perm {A B : List Lot} (h : List.Perm A B) :
    sumRem A = sumRem B := by
  unfold sumRem
  exact (h.map (fun l => l.quantity_remaining)).sum_eq

theorem sumRemAt_perm (instr acct : Nat) {A B : List Lot}
    (h : List.Perm A B) :
    sumRemAt instr acct A = sumRemAt instr acct B :=
  sumRem_perm (h.filter (lotAt instr acct))

theorem sumRemAt_of_all (instr acct : Nat) {L : List Lot}
    (hall : ∀ l ∈ L, lotAt instr acct l = true) :
    sumRemAt instr acct L = sumRem L := by
  unfold sumRemAt
  rw [List.filter_eq_self.mpr hall]

theorem sumRemAt_of_none (instr acct : Nat) {L : List Lot}
    (hnone : ∀ l ∈ L, lotAt instr acct l = false) :
    sumRemAt instr acct L = 0 := by
  unfold sumRemAt
  rw [List.filter_eq_nil_iff.mpr (fun l hl => by simp [hnone l hl])]
  rfl

theorem insertLot_perm (l : Lot) :
    ∀ ls : List Lot, List.Perm (insertLot l ls) (l :: ls)
  | [] => List.Perm.refl _
  | x :: xs => by
      unfold insertLot
      by_cases h : lotLE l x
      · rw [if_pos h]
      · rw [if_neg h]
        exact ((insertLot_perm l xs).cons x).trans (List.Perm.swap l x xs)

theorem sortLots_perm : ∀ ls : List Lot, List.Perm (sortLots ls) ls
  | [] => List.Perm.refl _
  | x :: xs => (insertLot_perm x (sortLots xs)).trans ((sortLots_perm xs).cons x)

theorem consume_spec :
    ∀ (ls : List Lot) (qty : ℚ) (recs : List (Nat × ℚ)) (out : List Lot)
      (cb : ℚ), consume qty ls = some (recs, out, cb) →
      sumRem out = sumRem ls - qty ∧
        (recs.map (fun rq => rq.2)).sum = qty ∧
        out.map (fun l => l.id) = ls.map (fun l => l.id) := by
  intro ls
  induction ls with
  | nil =>
      intro qty recs out cb h
      simp only [consume] at h
      by_cases hq : qty = 0
      · rw [if_pos hq] at h
        simp only [Option.some.injEq, Prod.mk.injEq] at h
        obtain ⟨h1, h2, h3⟩ := h
        subst h1; subst h2
        simp [sumRem, hq]
      · rw [if_neg hq] at h
        cases h
  | cons l rest ih =>
      intro qty recs out cb h
      simp only [consume] at h
      by_cases hq : qty = 0
      · rw [if_pos hq] at h
        simp only [Option.some.injEq, Prod.mk.injEq] at h
        obtain ⟨h1, h2, h3⟩ := h
        subst h1; subst h2
        simp [hq]
      · rw [if_neg hq] at h
        by_cases hle : qty ≤ l.quantity_remaining
        · rw [if_pos hle] at h
          simp only [Option.some.injEq, Prod.mk.injEq] at h
          obtain ⟨h1, h2, h3⟩ := h
          subst h1; subst h2
          refine ⟨?_, by simp, by simp⟩
          simp [sumRem_cons]
          ring
        · rw [if_neg hle] at h
          cases hc : consume (qty - l.quantity_remaining) rest with
          | none => rw [hc] at h; cases h
          | some triple =>
              obtain ⟨recs2, rest2, cb2⟩ := triple
              rw [hc] at h
              simp only [Option.some.injEq, Prod.mk.injEq] at h
              obtain ⟨h1, h2, h3⟩ := h
              subst h1; subst h2
              obtain ⟨ihs, ihr, ihi⟩ := ih (qty - l.quantity_remaining) recs2 rest2 cb2 hc
              refine ⟨?_, ?_, ?_⟩
              · rw [sumRem_cons, sumRem_cons]
                simp only
                rw [ihs]
                ring
              · rw [List.map_cons, List.sum_cons, ihr]
                ring
              · simp [ihi]

theorem consume_mem :
    ∀ (ls : List Lot) (qty : ℚ) (recs : List (Nat × ℚ)) (out : List Lot)
      (cb : ℚ), 0 ≤ qty → consume qty ls = some (recs, out, cb) →
      ∀ l2 ∈ out, ∃ l ∈ ls, l2.id = l.id ∧ l2.instrument = l.instrument ∧
        l2.account = l.account ∧ l2.open_date = l.open_date ∧
        l2.quantity_opened = l.quantity_opened ∧
        l2.cost_per_unit = l.cost_per_unit ∧ l2.cost_total = l.cost_total ∧
        (0 ≤ l.quantity_remaining →
          l2.quantity_remaining ≤ l.quantity_remaining ∧
            0 ≤ l2.quantity_remaining) := by
  intro ls
  induction ls with
  | nil =>
      intro qty recs out cb hq h
      simp only [consume] at h
      by_cases hq0 : qty = 0
      · rw [if_pos hq0] at h
        simp only [Option.some.injEq, Prod.mk.injEq] at h
        obtain ⟨h1, h2, h3⟩ := h
        subst h2
        intro l2 hl2
        cases hl2
      · rw [if_neg hq0] at h
        cases h
  | cons l rest ih =>
      intro qty recs out cb hq h
      simp only [consume] at h
      by_cases hq0 : qty = 0
      · rw [if_pos hq0] at h
        simp only [Option.some.injEq, Prod.mk.injEq] at h
        obtain ⟨h1, h2, h3⟩ := h
        subst h2
        intro l2 hl2
        exact ⟨l2, hl2, rfl, rfl, rfl, rfl, rfl, rfl, rfl, fun hx => ⟨le_refl _, hx⟩⟩
      · rw [if_neg hq0] at h
        by_cases hle : qty ≤ l.quantity_remaining
        · rw [if_pos hle] at h
          simp only [Option.some.injEq, Prod.mk.injEq] at h
          obtain ⟨h1, h2, h3⟩ := h
          subst h2
          intro l2 hl2
          rcases List.mem_cons.mp hl2 with hl2 | hl2
          · refine ⟨l, List.mem_cons_self l rest, ?_⟩
            subst hl2
            refine ⟨rfl, rfl, rfl, rfl, rfl, rfl, rfl, fun _ => ⟨?_, ?_⟩⟩
            · show l.quantity_remaining - qty ≤ l.quantity_remaining
              linarith
            · show 0 ≤ l.quantity_remaining - qty
              linarith
          · exact ⟨l2, List.mem_cons_of_mem l hl2,
              rfl, rfl, rfl, rfl, rfl, rfl, rfl, fun hx => ⟨le_refl _, hx⟩⟩
        · rw [if_neg hle] at h
          cases hc : consume (qty - l.quantity_remaining) rest with
          | none => rw [hc] at h; cases h
          | some triple =>
              obtain ⟨recs2, rest2, cb2⟩ := triple
              rw [hc] at h
              simp only [Option.some.injEq, Prod.mk.injEq] at h
              obtain ⟨h1, h2, h3⟩ := h
              subst h2
              intro l2 hl2
              rcases List.mem_cons.mp hl2 with hl2 | hl2
              · refine ⟨l, List.mem_cons_self l rest, ?_⟩
                subst hl2
                refine ⟨rfl, rfl, rfl, rfl, rfl, rfl, rfl, fun hrem => ⟨?_, ?_⟩⟩
                · show (0 : ℚ) ≤ l.quantity_remaining
                  exact hrem
                · show (0 : ℚ) ≤ 0
                  exact le_refl 0
              · have hrec := ih (qty - l.quantity_remaining) recs2 rest2 cb2
                  (by linarith) hc l2 hl2
                obtain ⟨l3, hl3, hcase⟩ := hrec
                exact ⟨l3, List.mem_cons_of_mem l hl3, hcase⟩

end Core

namespace Core

theorem close_quantity_sums (instr acct : Nat) (qty pr : ℚ)
    (lots newLots : List Lot) (recs : List (Nat × ℚ)) (r : ℚ)
    (hq : 0 ≤ qty)
    (h : close_quantity instr acct qty pr lots = Except.ok (r, newLots, recs)) :
    (∀ i2 a2, sumRemAt i2 a2 newLots =
      sumRemAt i2 a2 lots - (if i2 = instr ∧ a2 = acct then qty else 0)) ∧
    List.Perm (newLots.map (fun l => l.id)) (lots.map (fun l => l.id)) ∧
    ((∀ l ∈ lots, 0 ≤ l.quantity_remaining ∧
        l.quantity_remaining ≤ l.quantity_opened) →
      ∀ l2 ∈ newLots, 0 ≤ l2.quantity_remaining ∧
        l2.quantity_remaining ≤ l2.quantity_opened) := by
  simp only [close_quantity] at h
  cases hcons : consume qty
      (sortLots ((lots.filter (lotAt instr acct)).filter lotOpen)) with
  | none =>
      rw [hcons] at h
      simp at h
  | some triple =>
      obtain ⟨recs0, out, cb⟩ := triple
      rw [hcons] at h
      simp only [Except.ok.injEq, Prod.mk.injEq] at h
      obtain ⟨hr, hout, hrecs⟩ := h
      subst hout
      obtain ⟨hsum, hrecsum, hids⟩ :=
        consume_spec _ qty recs0 out cb hcons
      have hsort : List.Perm
          (sortLots ((lots.filter (lotAt instr acct)).filter lotOpen))
          ((lots.filter (lotAt instr acct)).filter lotOpen) :=
        sortLots_perm _
      have hMperm : List.Perm
          (lots.filter (lotAt instr acct) ++
            lots.filter (fun l => !(lotAt instr acct l))) lots :=
        List.filter_append_perm _ lots
      have hOCperm : List.Perm
          ((lots.filter (lotAt instr acct)).filter lotOpen ++
            (lots.filter (lotAt instr acct)).filter (fun l => !(lotOpen l)))
          (lots.filter (lotAt instr acct)) :=
        List.filter_append_perm _ _
      have hM_all : ∀ l ∈ lots.filter (lotAt instr acct),
          lotAt instr acct l = true :=
        fun l hl => (List.mem_filter.mp hl).2
      have hC_all : ∀ l ∈ (lots.filter (lotAt instr acct)).filter
          (fun l => !(lotOpen l)), lotAt instr acct l = true :=
        fun l hl => hM_all l (List.mem_filter.mp hl).1
      have hN_none : ∀ l ∈ lots.filter (fun l => !(lotAt instr acct l)),
          lotAt instr acct l = false := by
        intro l hl
        have := (List.mem_filter.mp hl).2
        simp only [Bool.not_eq_true'] at this
        exact this
      have hout_match : ∀ l2 ∈ out, lotAt instr acct l2 = true := by
        intro l2 hl2
        obtain ⟨l, hl, hid, hinstr, hacct, hrest⟩ :=
          consume_mem _ qty recs0 out cb hq hcons l2 hl2
        have hlO := hsort.mem_iff.mp hl
        have hOk := hM_all l (List.mem_filter.mp hlO).1
        rw [lotAt_iff] at hOk ⊢
        exact ⟨hinstr.trans hOk.1, hacct.trans hOk.2⟩
      refine ⟨?_, ?_, ?_⟩
      · intro i2 a2
        rw [sumRemAt_append, sumRemAt_append]
        by_cases hkey : i2 = instr ∧ a2 = acct
        · obtain ⟨hi, ha⟩ := hkey
          subst hi
          subst ha
          rw [sumRemAt_of_all _ _ hout_match, sumRemAt_of_all _ _ hC_all,
            sumRemAt_of_none _ _ hN_none]
          have hlots : sumRemAt i2 a2 lots =
              sumRem ((lots.filter (lotAt i2 a2)).filter lotOpen) +
                sumRem ((lots.filter (lotAt i2 a2)).filter
                  (fun l => !(lotOpen l))) := by
            have h1 : sumRemAt i2 a2 lots =
                sumRemAt i2 a2 (lots.filter (lotAt i2 a2) ++
                  lots.filter (fun l => !(lotAt i2 a2 l))) :=
              (sumRemAt_perm i2 a2 hMperm).symm
            rw [h1, sumRemAt_append, sumRemAt_of_all _ _ hM_all,
              sumRemAt_of_none _ _ hN_none]
            rw [← sumRem_perm hOCperm, sumRem_append]
            ring
          rw [hsum, sumRem_perm hsort, hlots, if_pos (And.intro rfl rfl)]
          ring
        · have hout_none : ∀ l2 ∈ out, lotAt i2 a2 l2 = false := by
            intro l2 hl2
            have hl2m := hout_match l2 hl2
            rw [lotAt_iff] at hl2m
            by_contra hcon
            simp only [Bool.not_eq_false] at hcon
            rw [lotAt_iff] at hcon
            exact hkey ⟨by rw [← hcon.1, hl2m.1], by rw [← hcon.2, hl2m.2]⟩
          have hC_none : ∀ l2 ∈ (lots.filter (lotAt instr acct)).filter
              (fun l => !(lotOpen l)), lotAt i2 a2 l2 = false := by
            intro l2 hl2
            have hl2m := hC_all l2 hl2
            rw [lotAt_iff] at hl2m
            by_contra hcon
            simp only [Bool.not_eq_false] at hcon
            rw [lotAt_iff] at hcon
            exact hkey ⟨by rw [← hcon.1, hl2m.1], by rw [← hcon.2, hl2m.2]⟩
          rw [sumRemAt_of_none _ _ hout_none, sumRemAt_of_none _ _ hC_none]
          have h1 : sumRemAt i2 a2 lots =
              sumRemAt i2 a2 (lots.filter (lotAt instr acct) ++
                lots.filter (fun l => !(lotAt instr acct l))) :=
            (sumRemAt_perm i2 a2 hMperm).symm
          have hM_none : ∀ l2 ∈ lots.filter (lotAt instr acct),
              lotAt i2 a2 l2 = false := by
            intro l2 hl2
            have hl2m := hM_all l2 hl2
            rw [lotAt_iff] at hl2m
            by_contra hcon
            simp only [Bool.not_eq_false] at hcon
            rw [lotAt_iff] at hcon
            exact hkey ⟨by rw [← hcon.1, hl2m.1], by rw [← hcon.2, hl2m.2]⟩
          rw [h1, sumRemAt_append, sumRemAt_of_none _ _ hM_none,
            if_neg hkey]
          ring
      · refine List.Perm.trans ?_ (hMperm.map (fun l => l.id))
        simp only [List.map_append]
        refine List.Perm.append_right _ ?_
        have p1 : List.Perm (out.map (fun l => l.id))
            (((lots.filter (lotAt instr acct)).filter lotOpen).map
              (fun l => l.id)) := by
          rw [hids]
          exact hsort.map _
        refine List.Perm.trans
          (p1.append_right (((lots.filter (lotAt instr acct)).filter
            (fun l => !(lotOpen l))).map (fun l => l.id))) ?_
        rw [← List.map_append]
        exact hOCperm.map (fun l => l.id)
      · intro hbounds l2 hl2
        rcases List.mem_append.mp hl2 with hl2 | hl2
        · rcases List.mem_append.mp hl2 with hl2 | hl2
          · obtain ⟨l, hl, hid, hinstr, hacct, hdate, hop, hcpu, hct, hrem⟩ :=
              consume_mem _ qty recs0 out cb hq hcons l2 hl2
            have hlO := hsort.mem_iff.mp hl
            have hlmem : l ∈ lots :=
              (List.mem_filter.mp ((List.mem_filter.mp hlO).1)).1
            obtain ⟨hb1, hb2⟩ := hbounds l hlmem
            obtain ⟨hr1, hr2⟩ := hrem hb1
            exact ⟨hr2, by rw [hop]; linarith⟩
          · exact hbounds l2
              (List.mem_filter.mp ((List.mem_filter.mp hl2).1)).1
        · exact hbounds l2 (List.mem_filter.mp hl2).1

end Core

namespace Core

theorem netAt_nil (instr acct : Nat) : netAt instr acct [] = 0 := rfl

theorem netAt_singleton (instr acct : Nat) (t : Txn) :
    netAt instr acct [t] =
      if txnAt instr acct t then signedQty t else 0 := by
  rw [netAt_cons, netAt_nil, add_zero]

theorem sumRemAt_nil (instr acct : Nat) : sumRemAt instr acct [] = 0 := rfl

theorem sumRemAt_singleton (instr acct : Nat) (l : Lot) :
    sumRemAt instr acct [l] =
      if lotAt instr acct l then l.quantity_remaining else 0 := by
  rw [sumRemAt_cons, sumRemAt_nil, add_zero]

theorem extractP_some {α : Type} (p : α → Bool) :
    ∀ {ls pre : List α} {a : α} {suf : List α},
      extractP p ls = some (pre, a, suf) →
      ls = pre ++ a :: suf ∧ p a = true := by
  intro ls
  induction ls with
  | nil => intro pre a suf h; cases h
  | cons x xs ih =>
      intro pre a suf h
      simp only [extractP] at h
      by_cases hp : p x
      · rw [if_pos hp] at h
        simp only [Option.some.injEq, Prod.mk.injEq] at h
        obtain ⟨h1, h2, h3⟩ := h
        subst h1; subst h2; subst h3
        exact ⟨rfl, hp⟩
      · rw [if_neg hp] at h
        cases hrec : extractP p xs with
        | none => rw [hrec] at h; cases h
        | some triple =>
            obtain ⟨pre2, a2, suf2⟩ := triple
            rw [hrec] at h
            simp only [Option.some.injEq, Prod.mk.injEq] at h
            obtain ⟨h1, h2, h3⟩ := h
            subst h1; subst h2; subst h3
            obtain ⟨hdec, hpa⟩ := ih hrec
            exact ⟨by rw [hdec]; rfl, hpa⟩

theorem restoreFor_nil (i : Nat) : restoreFor [] i = 0 := rfl

theorem restoreFor_cons (rq : Nat × ℚ) (cons : List (Nat × ℚ)) (i : Nat) :
    restoreFor (rq :: cons) i =
      (if rq.1 = i then rq.2 else 0) + restoreFor cons i := by
  by_cases h : rq.1 = i
  · simp [restoreFor, List.filter_cons, h]
  · simp [restoreFor, List.filter_cons, h]

theorem restoreFor_nonneg {cons : List (Nat × ℚ)} (i : Nat)
    (h : ∀ rq ∈ cons, 0 ≤ rq.2) : 0 ≤ restoreFor cons i := by
  unfold restoreFor
  apply List.sum_nonneg
  intro x hx
  obtain ⟨rq, hrq, heq⟩ := List.mem_map.mp hx
  rw [← heq]
  exact h rq (List.mem_filter.mp hrq).1

theorem restoreFor_zero {cons : List (Nat × ℚ)} {i : Nat}
    (h : ∀ rq ∈ cons, rq.1 ≠ i) : restoreFor cons i = 0 := by
  unfold restoreFor
  rw [List.filter_eq_nil_iff.mpr (fun rq hrq => by simp [h rq hrq])]
  rfl

theorem sum_if_zero_of_count_zero (F : List Lot) (r : Nat) (c : ℚ)
    (h : (F.filter (fun l => l.id == r)).length = 0) :
    (F.map (fun l => if r = l.id then c else 0)).sum = 0 := by
  induction F with
  | nil => rfl
  | cons l F2 ih =>
      rw [List.filter_cons] at h
      by_cases hl : (l.id == r) = true
      · rw [if_pos hl, List.length_cons] at h
        omega
      · rw [if_neg hl] at h
        have hr : ¬ r = l.id := by
          intro hx
          exact hl (by simp [hx])
        simp only [List.map_cons, List.sum_cons, if_neg hr]
        rw [ih h]
        ring

theorem sum_if_of_count_one (F : List Lot) (r : Nat) (c : ℚ)
    (h : (F.filter (fun l => l.id == r)).length = 1) :
    (F.map (fun l => if r = l.id then c else 0)).sum = c := by
  induction F with
  | nil => cases h
  | cons l F2 ih =>
      rw [List.filter_cons] at h
      by_cases hl : (l.id == r) = true
      · rw [if_pos hl, List.length_cons] at h
        have h0 : (F2.filter (fun l => l.id == r)).length = 0 := by omega
        have hr : r = l.id := by
          have := beq_iff_eq.mp hl
          exact this.symm
        simp only [List.map_cons, List.sum_cons, if_pos hr]
        rw [sum_if_zero_of_count_zero F2 r c h0]
        ring
      · rw [if_neg hl] at h
        have hr : ¬ r = l.id := by
          intro hx
          exact hl (by simp [hx])
        simp only [List.map_cons, List.sum_cons, if_neg hr]
        rw [ih h]
        ring

theorem sum_restoreFor (cons : List (Nat × ℚ)) (F : List Lot)
    (h : ∀ rq ∈ cons, (F.filter (fun l => l.id == rq.1)).length = 1) :
    (F.map (fun l => restoreFor cons l.id)).sum =
      (cons.map (fun rq => rq.2)).sum := by
  induction cons with
  | nil => simp [restoreFor_nil]
  | cons rq cons2 ih =>
      have heq : (F.map (fun l => restoreFor (rq :: cons2) l.id)) =
          F.map (fun l =>
            (if rq.1 = l.id then rq.2 else 0) + restoreFor cons2 l.id) := by
        apply List.map_congr_left
        intro l _
        exact restoreFor_cons rq cons2 l.id
      rw [heq, List.sum_map_add]
      rw [sum_if_of_count_one F rq.1 rq.2 (h rq (List.mem_cons_self rq cons2))]
      rw [ih (fun rq2 hrq2 => h rq2 (List.mem_cons_of_mem rq hrq2))]
      simp

end Core

namespace Core

theorem splitLot_static (instr : Nat) (f : ℚ) (l : Lot) :
    (splitLot instr f l).id = l.id ∧
    (splitLot instr f l).instrument = l.instrument ∧
    (splitLot instr f l).account = l.account ∧
    (splitLot instr f l).cost_total = l.cost_total := by
  unfold splitLot
  split
  · exact ⟨rfl, rfl, rfl, rfl⟩
  · exact ⟨rfl, rfl, rfl, rfl⟩

theorem lotAt_splitLot (i a instr : Nat) (f : ℚ) (l : Lot) :
    lotAt i a (splitLot instr f l) = lotAt i a l := by
  unfold lotAt splitLot
  split
  · rfl
  · rfl

theorem splitLot_rem (instr : Nat) (f : ℚ) (l : Lot)
    (h : l.instrument = instr) :
    (splitLot instr f l).quantity_remaining = f * l.quantity_remaining := by
  unfold splitLot
  by_cases hc : l.instrument = instr ∧ l.quantity_remaining ≠ 0
  · rw [if_pos hc]
  · rw [if_neg hc]
    have hz : l.quantity_remaining = 0 := by
      by_contra hne
      exact hc ⟨h, hne⟩
    rw [hz]
    ring

theorem splitLot_rem_off (instr : Nat) (f : ℚ) (l : Lot)
    (h : ¬ l.instrument = instr) :
    (splitLot instr f l).quantity_remaining = l.quantity_remaining := by
  unfold splitLot
  rw [if_neg (fun hc => h hc.1)]

theorem sumRemAt_map_split_at (a2 instr : Nat) (f : ℚ) :
    ∀ ls : List Lot, sumRemAt instr a2 (ls.map (splitLot instr f)) =
      f * sumRemAt instr a2 ls := by
  intro ls
  induction ls with
  | nil => simp [sumRemAt_nil]
  | cons l ls2 ih =>
      rw [List.map_cons, sumRemAt_cons, sumRemAt_cons, ih, lotAt_splitLot]
      by_cases hkey : lotAt instr a2 l
      · rw [if_pos hkey, if_pos hkey,
          splitLot_rem instr f l (lotAt_iff.mp hkey).1]
        ring
      · rw [if_neg hkey, if_neg hkey]
        ring

theorem sumRemAt_map_split_off (i2 a2 instr : Nat) (f : ℚ)
    (hne : ¬ i2 = instr) :
    ∀ ls : List Lot, sumRemAt i2 a2 (ls.map (splitLot instr f)) =
      sumRemAt i2 a2 ls := by
  intro ls
  induction ls with
  | nil => simp [sumRemAt_nil]
  | cons l ls2 ih =>
      rw [List.map_cons, sumRemAt_cons, sumRemAt_cons, ih, lotAt_splitLot]
      by_cases hkey : lotAt i2 a2 l
      · rw [if_pos hkey, if_pos hkey, splitLot_rem_off instr f l ?_]
        have := (lotAt_iff.mp hkey).1
        rw [this]
        exact hne
      · rw [if_neg hkey, if_neg hkey]

theorem txnAt_splitAdj (i2 a2 base instr : Nat) (f : ℚ) (date : Nat)
    (ls : List Lot) (acct : Nat) :
    txnAt i2 a2 (splitAdj base instr f date ls acct) =
      decide (instr = i2 ∧ acct = a2) := rfl

theorem signedQty_splitAdj (base instr : Nat) (f : ℚ) (date : Nat)
    (ls : List Lot) (acct : Nat) :
    signedQty (splitAdj base instr f date ls acct) =
      (f - 1) * sumRemAt instr acct ls := by
  unfold splitAdj signedQty
  by_cases h : 0 ≤ (f - 1) * sumRemAt instr acct ls
  · simp only [if_pos h]
    exact abs_of_nonneg h
  · simp only [if_neg h]
    rw [abs_of_neg (lt_of_not_le h)]
    ring

theorem netAt_adjTxns (i2 a2 instr : Nat) (f : ℚ) (base date : Nat)
    (ls : List Lot) :
    ∀ L : List Nat, L.Nodup →
      netAt i2 a2 (L.map (splitAdj base instr f date ls)) =
        if i2 = instr ∧ a2 ∈ L then (f - 1) * sumRemAt instr a2 ls
        else 0 := by
  intro L
  induction L with
  | nil => intro _; simp [netAt_nil]
  | cons a L2 ih =>
      intro hnodup
      rw [List.map_cons, netAt_cons, ih (List.nodup_cons.mp hnodup).2]
      by_cases hc : instr = i2 ∧ a = a2
      · have ht : txnAt i2 a2 (splitAdj base instr f date ls a) = true := by
          rw [txnAt_splitAdj]
          simp [hc.1, hc.2]
        rw [if_pos ht, signedQty_splitAdj]
        have hnm : a2 ∉ L2 := by
          rw [← hc.2]
          exact (List.nodup_cons.mp hnodup).1
        rw [if_neg (fun hx => hnm hx.2)]
        rw [if_pos ⟨hc.1.symm, by rw [← hc.2]; exact List.mem_cons_self a L2⟩]
        rw [hc.2]
        ring
      · have ht : txnAt i2 a2 (splitAdj base instr f date ls a) = false := by
          rw [txnAt_splitAdj]
          simp only [decide_eq_false_iff_not]
          exact hc
        rw [ht]
        simp only [Bool.false_eq_true, if_false, zero_add]
        by_cases hi : i2 = instr
        · by_cases hm : a2 ∈ L2
          · rw [if_pos ⟨hi, hm⟩, if_pos ⟨hi, List.mem_cons_of_mem a hm⟩]
          · rw [if_neg (fun hx => hm hx.2)]
            have hm2 : a2 ∉ a :: L2 := by
              intro hx
              rcases List.mem_cons.mp hx with hx | hx
              · exact hc ⟨hi.symm, hx.symm⟩
              · exact hm hx
            rw [if_neg (fun hx => hm2 hx.2)]
        · rw [if_neg (fun hx => hi hx.1), if_neg (fun hx => hi hx.1)]

theorem sumRemAt_zero_off_openAccounts (instr a2 : Nat) (ls : List Lot)
    (h : a2 ∉ openAccounts instr ls) : sumRemAt instr a2 ls = 0 := by
  unfold sumRemAt sumRem
  apply List.sum_eq_zero
  intro x hx
  obtain ⟨l, hl, hrem⟩ := List.mem_map.mp hx
  obtain ⟨hmem, hat⟩ := List.mem_filter.mp hl
  rw [lotAt_iff] at hat
  by_contra hne
  apply h
  unfold openAccounts
  rw [List.mem_dedup]
  refine List.mem_map.mpr ⟨l, List.mem_filter.mpr ⟨hmem, ?_⟩, hat.2⟩
  have hlopen : lotOpen l = true := by
    unfold lotOpen
    simp only [decide_eq_true_eq]
    intro hz
    exact hne (by rw [← hrem, hz])
  simp [hat.1, hlopen]

end Core

namespace Core

theorem inv_postBuy {s s2 : CoreState} {instr acct : Nat} {qty cost : ℚ}
    {date : Nat} (hinv : CoreInv s)
    (h : postBuy instr acct qty cost date s = Except.ok s2) : CoreInv s2 := by
  obtain ⟨hb, hrec, hnodup, hfresh⟩ := hinv
  unfold postBuy at h
  by_cases hq : qty ≤ 0
  · rw [if_pos hq] at h
    cases h
  · rw [if_neg hq] at h
    simp only [Except.ok.injEq] at h
    subst h
    have hqpos : 0 < qty := lt_of_not_le hq
    refine ⟨?_, ?_, ?_, ?_⟩
    · intro l hl
      rcases List.mem_append.mp hl with hl | hl
      · exact hb l hl
      · simp only [List.mem_singleton] at hl
        subst hl
        exact ⟨le_of_lt hqpos, le_refl _⟩
    · intro i2 a2
      simp only
      rw [sumRemAt_append, netAt_append, hrec i2 a2,
        sumRemAt_singleton, netAt_singleton]
      have hcond : lotAt i2 a2 (mkLot s.nextLotId instr acct date qty cost) =
          txnAt i2 a2 ⟨s.nextTxnId, instr, acct, Side.BUY, qty, cost, date,
            false, s.nextLotId, []⟩ := rfl
      rw [hcond]
      by_cases hc : txnAt i2 a2 ⟨s.nextTxnId, instr, acct, Side.BUY, qty,
          cost, date, false, s.nextLotId, []⟩
      · rw [if_pos hc, if_pos hc]
        rfl
      · rw [if_neg hc, if_neg hc]
    · simp only [List.map_append, List.map_cons, List.map_nil]
      rw [List.nodup_append]
      refine ⟨hnodup, List.nodup_singleton _, ?_⟩
      intro x hx1 hx2
      simp only [List.mem_singleton] at hx2
      obtain ⟨l, hl, hid⟩ := List.mem_map.mp hx1
      have := hfresh l hl
      simp only [mkLot] at hx2
      subst hx2
      omega
    · intro l hl
      simp only
      rcases List.mem_append.mp hl with hl | hl
      · have := hfresh l hl
        omega
      · simp only [List.mem_singleton] at hl
        subst hl
        simp [mkLot]

theorem inv_postSell {s s2 : CoreState} {instr acct : Nat} {qty pr : ℚ}
    {date : Nat} (hinv : CoreInv s)
    (h : postSell instr acct qty pr date s = Except.ok s2) : CoreInv s2 := by
  obtain ⟨hb, hrec, hnodup, hfresh⟩ := hinv
  unfold postSell at h
  by_cases hq : qty ≤ 0
  · rw [if_pos hq] at h
    cases h
  · rw [if_neg hq] at h
    cases hcq : close_quantity instr acct qty pr s.lots with
    | error e => rw [hcq] at h; cases h
    | ok triple =>
        obtain ⟨r0, newLots, recs⟩ := triple
        rw [hcq] at h
        simp only [Except.ok.injEq] at h
        subst h
        have hq0 : (0:ℚ) ≤ qty := le_of_lt (lt_of_not_le hq)
        obtain ⟨hsums, hperm, hbnds⟩ :=
          close_quantity_sums instr acct qty pr s.lots newLots recs r0 hq0 hcq
        refine ⟨?_, ?_, ?_, ?_⟩
        · intro l hl
          exact hbnds hb l hl
        · intro i2 a2
          simp only
          rw [hsums i2 a2, hrec i2 a2, netAt_append, netAt_singleton]
          have hcond : txnAt i2 a2 ⟨s.nextTxnId, instr, acct, Side.SELL, qty,
              pr, date, false, 0, recs⟩ = decide (instr = i2 ∧ acct = a2) := by
            unfold txnAt
            rfl
          have hsq : signedQty ⟨s.nextTxnId, instr, acct, Side.SELL, qty,
              pr, date, false, 0, recs⟩ = -qty := rfl
          have hcond2 : (if txnAt i2 a2 ⟨s.nextTxnId, instr, acct, Side.SELL,
              qty, pr, date, false, 0, recs⟩ then
                signedQty ⟨s.nextTxnId, instr, acct, Side.SELL, qty, pr, date,
                  false, 0, recs⟩ else 0) =
              (if instr = i2 ∧ acct = a2 then -qty else 0) := by
            rw [hcond, hsq]
            by_cases hc : instr = i2 ∧ acct = a2
            · simp [hc]
            · simp [hc]
          rw [hcond2]
          by_cases hc : instr = i2 ∧ acct = a2
          · rw [if_pos hc, if_pos ⟨hc.1.symm, hc.2.symm⟩]
            ring
          · rw [if_neg hc,
              if_neg (fun hx => hc ⟨hx.1.symm, hx.2.symm⟩)]
            ring
        · exact (hperm.nodup_iff).mpr hnodup
        · intro l hl
          simp only
          have hmem : l.id ∈ s.lots.map (fun l => l.id) :=
            hperm.mem_iff.mp (List.mem_map.mpr ⟨l, hl, rfl⟩)
          obtain ⟨l2, hl2, hid⟩ := List.mem_map.mp hmem
          rw [← hid]
          exact hfresh l2 hl2

theorem inv_newAction {s : CoreState} {instr : Nat} {kind : CAKind}
    {f cash : ℚ} {date : Nat} (hinv : CoreInv s) :
    CoreInv (createAction instr kind f cash date s) := by
  obtain ⟨hb, hrec, hnodup, hfresh⟩ := hinv
  exact ⟨hb, hrec, hnodup, hfresh⟩

end Core

namespace Core

theorem lot_eq_of_id_eq {s : CoreState}
    (hnodup : (s.lots.map (fun l => l.id)).Nodup) {x y : Lot}
    (hx : x ∈ s.lots) (hy : y ∈ s.lots) (hid : x.id = y.id) : x = y :=
  List.inj_on_of_nodup_map hnodup hx hy hid

theorem restoreFor_zero_off_key {s : CoreState} {t : Txn}
    (hnodup : (s.lots.map (fun l => l.id)).Nodup)
    (c3 : ∀ rq ∈ t.consumed, (s.lots.filter (fun l =>
      l.id == rq.1 && lotAt t.instrument t.account l)).length = 1)
    {l : Lot} (hl : l ∈ s.lots)
    (hoff : lotAt t.instrument t.account l = false) :
    restoreFor t.consumed l.id = 0 := by
  apply restoreFor_zero
  intro rq hrq
  by_contra hne0
  have hne : rq.1 = l.id := hne0
  obtain ⟨x, hxeq⟩ := List.length_eq_one.mp (c3 rq hrq)
  have hxmem : x ∈ s.lots.filter (fun l =>
      l.id == rq.1 && lotAt t.instrument t.account l) := by
    rw [hxeq]
    exact List.mem_singleton.mpr rfl
  obtain ⟨hxl, hxp⟩ := List.mem_filter.mp hxmem
  rw [Bool.and_eq_true] at hxp
  have hxid : x.id = rq.1 := by
    have := hxp.1
    simpa using this
  have hxeq2 : x = l := lot_eq_of_id_eq hnodup hxl hl (by rw [hxid, hne])
  rw [hxeq2] at hxp
  rw [hxp.2] at hoff
  cases hoff

theorem inv_unpost {s s2 : CoreState} {tid : Nat} (hinv : CoreInv s)
    (h : unpost tid s = Except.ok s2) : CoreInv s2 := by
  obtain ⟨hb, hrec, hnodup, hfresh⟩ := hinv
  unfold unpost at h
  cases hext : extractP (fun t => t.id == tid) s.txns with
  | none => rw [hext] at h; cases h
  | some tr =>
      obtain ⟨pre, t, suf⟩ := tr
      rw [hext] at h
      simp only at h
      obtain ⟨htxns, hpt⟩ := extractP_some _ hext
      by_cases hfa : t.fromAction = true
      · rw [if_pos hfa] at h
        cases h
      · rw [if_neg hfa] at h
        have hnetdec : ∀ i2 a2, netAt i2 a2 s.txns =
            netAt i2 a2 (pre ++ suf) +
              (if txnAt i2 a2 t then signedQty t else 0) := by
          intro i2 a2
          rw [htxns, netAt_append, netAt_append, netAt_cons]
          ring
        cases hside : t.side with
        | BUY =>
            rw [hside] at h
            simp only at h
            cases hlext : extractP (fun l => l.id == t.lotId) s.lots with
            | none => rw [hlext] at h; cases h
            | some ltr =>
                obtain ⟨lpre, l, lsuf⟩ := ltr
                rw [hlext] at h
                simp only at h
                obtain ⟨hlots, hpl⟩ := extractP_some _ hlext
                by_cases hcnd : l.instrument = t.instrument ∧
                    l.account = t.account ∧
                    l.quantity_remaining = t.quantity ∧
                    l.quantity_opened = t.quantity
                · rw [if_pos hcnd] at h
                  simp only [Except.ok.injEq] at h
                  subst h
                  have hmem : ∀ l2 ∈ lpre ++ lsuf, l2 ∈ s.lots := by
                    intro l2 hl2
                    rw [hlots]
                    rcases List.mem_append.mp hl2 with h2 | h2
                    · exact List.mem_append_left _ h2
                    · exact List.mem_append_right _
                        (List.mem_cons_of_mem l h2)
                  refine ⟨?_, ?_, ?_, ?_⟩
                  · intro l2 hl2
                    exact hb l2 (hmem l2 hl2)
                  · intro i2 a2
                    simp only
                    have hsl : sumRemAt i2 a2 s.lots =
                        sumRemAt i2 a2 (lpre ++ lsuf) +
                          (if lotAt i2 a2 l then l.quantity_remaining
                            else 0) := by
                      rw [hlots, sumRemAt_append, sumRemAt_append,
                        sumRemAt_cons]
                      ring
                    have hceq : lotAt i2 a2 l = txnAt i2 a2 t := by
                      unfold lotAt txnAt
                      rw [hcnd.1, hcnd.2.1]
                    have hsq : signedQty t = t.quantity := by
                      unfold signedQty
                      rw [hside]
                    have hr := hrec i2 a2
                    rw [hsl, hnetdec i2 a2, hceq, hsq] at hr
                    by_cases hc : txnAt i2 a2 t
                    · rw [if_pos hc, if_pos hc] at hr
                      have := hcnd.2.2.1
                      linarith
                    · rw [if_neg hc, if_neg hc] at hr
                      linarith
                  · have hsub : (lpre ++ lsuf).Sublist s.lots := by
                      rw [hlots]
                      exact (List.sublist_cons_self l lsuf).append_left lpre
                    exact List.Nodup.sublist (hsub.map _) hnodup
                  · intro l2 hl2
                    exact hfresh l2 (hmem l2 hl2)
                · rw [if_neg hcnd] at h
                  cases h
        | SELL =>
            rw [hside] at h
            simp only at h
            by_cases hchk : ((t.consumed.all fun rq => decide (0 ≤ rq.2)) &&
                decide ((t.consumed.map (fun rq => rq.2)).sum = t.quantity) &&
                (t.consumed.all fun rq =>
                  (s.lots.filter (fun l =>
                    l.id == rq.1 && lotAt t.instrument t.account l)).length
                      == 1) &&
                (s.lots.all fun l =>
                  decide (l.quantity_remaining + restoreFor t.consumed l.id ≤
                    l.quantity_opened))) = true
            · rw [if_pos hchk] at h
              simp only [Except.ok.injEq] at h
              subst h
              rw [Bool.and_eq_true, Bool.and_eq_true, Bool.and_eq_true]
                at hchk
              obtain ⟨⟨⟨hA, hB⟩, hC⟩, hD⟩ := hchk
              have c1 : ∀ rq ∈ t.consumed, (0:ℚ) ≤ rq.2 := by
                intro rq hrq
                have := List.all_eq_true.mp hA rq hrq
                simpa using this
              have c2 : (t.consumed.map (fun rq => rq.2)).sum = t.quantity :=
                of_decide_eq_true hB
              have c3 : ∀ rq ∈ t.consumed, (s.lots.filter (fun l =>
                  l.id == rq.1 && lotAt t.instrument t.account l)).length
                    = 1 := by
                intro rq hrq
                have := List.all_eq_true.mp hC rq hrq
                simpa using this
              have c4 : ∀ l ∈ s.lots, l.quantity_remaining +
                  restoreFor t.consumed l.id ≤ l.quantity_opened := by
                intro l hl
                have := List.all_eq_true.mp hD l hl
                simpa using this
              refine ⟨?_, ?_, ?_, ?_⟩
              · intro l2 hl2
                simp only at hl2
                obtain ⟨l, hl, hleq⟩ := List.mem_map.mp hl2
                subst hleq
                constructor
                · show (0:ℚ) ≤ l.quantity_remaining + restoreFor t.consumed l.id
                  have := (hb l hl).1
                  have := restoreFor_nonneg l.id c1
                  linarith
                · show l.quantity_remaining + restoreFor t.consumed l.id ≤
                    l.quantity_opened
                  exact c4 l hl
              · intro i2 a2
                simp only
                have hfcomm : (s.lots.map (fun l =>
                    { l with quantity_remaining := l.quantity_remaining +
                        restoreFor t.consumed l.id })).filter (lotAt i2 a2) =
                    (s.lots.filter (lotAt i2 a2)).map (fun l =>
                      { l with quantity_remaining := l.quantity_remaining +
                        restoreFor t.consumed l.id }) := by
                  rw [List.filter_map]
                  rfl
                have hsplit : sumRemAt i2 a2 (s.lots.map (fun l =>
                    { l with quantity_remaining := l.quantity_remaining +
                        restoreFor t.consumed l.id })) =
                    sumRemAt i2 a2 s.lots +
                      ((s.lots.filter (lotAt i2 a2)).map
                        (fun l => restoreFor t.consumed l.id)).sum := by
                  unfold sumRemAt sumRem
                  rw [hfcomm, List.map_map]
                  have : ((s.lots.filter (lotAt i2 a2)).map
                      ((fun l => l.quantity_remaining) ∘ (fun l =>
                        { l with quantity_remaining := l.quantity_remaining +
                          restoreFor t.consumed l.id }))) =
                      (s.lots.filter (lotAt i2 a2)).map (fun l =>
                        l.quantity_remaining +
                          restoreFor t.consumed l.id) := rfl
                  rw [this, List.sum_map_add]
                have hnet2 : netAt i2 a2 (pre ++ suf) =
                    netAt i2 a2 s.txns -
                      (if txnAt i2 a2 t then signedQty t else 0) := by
                  rw [hnetdec i2 a2]
                  ring
                rw [hsplit, hnet2, ← hrec i2 a2]
                have hsq : signedQty t = -t.quantity := by
                  unfold signedQty
                  rw [hside]
                rw [hsq]
                by_cases hc : txnAt i2 a2 t
                · rw [if_pos hc]
                  obtain ⟨ht1, ht2⟩ := txnAt_iff.mp hc
                  have hcount : ∀ rq ∈ t.consumed,
                      ((s.lots.filter (lotAt i2 a2)).filter (fun l =>
                        l.id == rq.1)).length = 1 := by
                    intro rq hrq
                    rw [List.filter_filter]
                    rw [← ht1, ← ht2]
                    exact c3 rq hrq
                  rw [sum_restoreFor t.consumed _ hcount, c2]
                  ring
                · rw [if_neg hc]
                  have hzero : ((s.lots.filter (lotAt i2 a2)).map
                      (fun l => restoreFor t.consumed l.id)).sum = 0 := by
                    apply List.sum_eq_zero
                    intro x hx
                    obtain ⟨l, hl, hleq⟩ := List.mem_map.mp hx
                    obtain ⟨hlmem, hlat⟩ := List.mem_filter.mp hl
                    have hoff : lotAt t.instrument t.account l = false := by
                      by_contra hcon
                      simp only [Bool.not_eq_false] at hcon
                      obtain ⟨g1, g2⟩ := lotAt_iff.mp hcon
                      obtain ⟨g3, g4⟩ := lotAt_iff.mp hlat
                      exact hc (txnAt_iff.mpr
                        ⟨by rw [← g1, g3], by rw [← g2, g4]⟩)
                    rw [← hleq]
                    exact restoreFor_zero_off_key hnodup c3 hlmem hoff
                  rw [hzero]
                  ring
              · simp only
                have hids : (s.lots.map (fun l =>
                    { l with quantity_remaining := l.quantity_remaining +
                        restoreFor t.consumed l.id })).map (fun l => l.id) =
                    s.lots.map (fun l => l.id) := by
                  rw [List.map_map]
                  rfl
                rw [hids]
                exact hnodup
              · intro l2 hl2
                simp only at hl2
                obtain ⟨l, hl, hleq⟩ := List.mem_map.mp hl2
                subst hleq
                show l.id < s.nextLotId
                exact hfresh l hl
            · rw [if_neg hchk] at h
              cases h

end Core

namespace Core

theorem inv_process {s s2 : CoreState} {aid : Nat} (hinv : CoreInv s)
    (h : processAction aid s = Except.ok s2) : CoreInv s2 := by
  obtain ⟨hb, hrec, hnodup, hfresh⟩ := hinv
  unfold processAction at h
  cases hfind : s.actions.find? (fun a => a.id == aid) with
  | none => rw [hfind] at h; cases h
  | some a =>
      rw [hfind] at h
      simp only at h
      by_cases hproc : a.processed = true
      · rw [if_pos hproc] at h
        cases h
      · rw [if_neg hproc] at h
        cases hkind : a.kind with
        | CASH_DIVIDEND =>
            rw [hkind] at h
            simp only [Except.ok.injEq] at h
            subst h
            exact ⟨hb, hrec, hnodup, hfresh⟩
        | SPLIT =>
            rw [hkind] at h
            simp only at h
            by_cases hf : 0 < a.factor
            · rw [if_pos hf] at h
              simp only [Except.ok.injEq] at h
              subst h
              refine ⟨?_, ?_, ?_, ?_⟩
              · intro l2 hl2
                simp only at hl2
                obtain ⟨l, hl, hleq⟩ := List.mem_map.mp hl2
                subst hleq
                obtain ⟨hb1, hb2⟩ := hb l hl
                unfold splitLot
                by_cases hcnd : l.instrument = a.instrument ∧
                    l.quantity_remaining ≠ 0
                · rw [if_pos hcnd]
                  constructor
                  · show (0:ℚ) ≤ a.factor * l.quantity_remaining
                    exact mul_nonneg (le_of_lt hf) hb1
                  · show a.factor * l.quantity_remaining ≤
                      a.factor * l.quantity_opened
                    exact mul_le_mul_of_nonneg_left hb2 (le_of_lt hf)
                · rw [if_neg hcnd]
                  exact ⟨hb1, hb2⟩
              · intro i2 a2
                simp only
                rw [netAt_append,
                  netAt_adjTxns i2 a2 a.instrument a.factor s.nextTxnId
                    a.date s.lots (openAccounts a.instrument s.lots)
                    (List.nodup_dedup _)]
                by_cases hi : i2 = a.instrument
                · rw [hi, sumRemAt_map_split_at]
                  by_cases hm : a2 ∈ openAccounts a.instrument s.lots
                  · rw [if_pos ⟨rfl, hm⟩, ← hrec a.instrument a2]
                    ring
                  · rw [if_neg (fun hx => hm hx.2)]
                    have hz :=
                      sumRemAt_zero_off_openAccounts a.instrument a2 s.lots hm
                    rw [hz, ← hrec a.instrument a2, hz]
                    ring
                · rw [sumRemAt_map_split_off i2 a2 a.instrument a.factor hi _,
                    if_neg (fun hx => hi hx.1), ← hrec i2 a2]
                  ring
              · simp only
                have hids : ((s.lots.map (splitLot a.instrument
                    a.factor)).map (fun l => l.id)) =
                    s.lots.map (fun l => l.id) := by
                  rw [List.map_map]
                  apply List.map_congr_left
                  intro l _
                  exact (splitLot_static a.instrument a.factor l).1
                rw [hids]
                exact hnodup
              · intro l2 hl2
                simp only at hl2
                obtain ⟨l, hl, hleq⟩ := List.mem_map.mp hl2
                subst hleq
                show (splitLot a.instrument a.factor l).id < s.nextLotId
                rw [(splitLot_static a.instrument a.factor l).1]
                exact hfresh l hl
            · rw [if_neg hf] at h
              cases h

theorem inv_initState : CoreInv initState := by
  refine ⟨?_, ?_, ?_, ?_⟩
  · intro l hl
    cases hl
  · intro i2 a2
    rfl
  · simp [initState]
  · intro l hl
    cases hl

theorem inv_runOp {s s2 : CoreState} (o : Op) (hinv : CoreInv s)
    (h : runOp o s = Except.ok s2) : CoreInv s2 := by
  cases o with
  | buy i acc q c d => exact inv_postBuy hinv h
  | sell i acc q p d => exact inv_postSell hinv h
  | unpostOp tid => exact inv_unpost hinv h
  | newAction i k f cash d =>
      simp only [runOp, Except.ok.injEq] at h
      subst h
      exact inv_newAction hinv
  | processOp aid => exact inv_process hinv h

theorem inv_applyOp (o : Op) {s : CoreState} (hinv : CoreInv s) :
    CoreInv (applyOp o s) := by
  unfold applyOp
  cases hrun : runOp o s with
  | ok s2 => exact inv_runOp o hinv hrun
  | error e => exact hinv

theorem inv_reach {s : CoreState} (h : CoreReach s) : CoreInv s := by
  induction h with
  | init => exact inv_initState
  | step o h2 ih => exact inv_applyOp o ih

theorem reconcile_of_reconciled {s : CoreState} (h : Reconciled s) :
    reconcile s = true := by
  unfold reconcile
  rw [List.all_eq_true]
  intro k hk
  simp only [beq_iff_eq]
  exact h k.1 k.2

end Core

namespace Core

theorem find_markProcessed (aid : Nat) :
    ∀ (acts : List CorporateAction) (a : CorporateAction),
      acts.find? (fun x => x.id == aid) = some a →
      (markProcessed aid acts).find? (fun x => x.id == aid) =
        some { a with processed := true } := by
  intro acts
  induction acts with
  | nil => intro a h; cases h
  | cons x xs ih =>
      intro a h
      have hcons : markProcessed aid (x :: xs) =
          (if (x.id == aid) = true then { x with processed := true } else x)
            :: markProcessed aid xs := rfl
      rw [hcons]
      by_cases hx : (x.id == aid) = true
      · rw [if_pos hx]
        simp only [List.find?_cons, hx, Option.some.injEq] at h
        subst h
        simp [List.find?_cons, hx]
      · have hxf : (x.id == aid) = false := by
          cases hbb : (x.id == aid)
          · rfl
          · exact absurd hbb hx
        rw [if_neg hx]
        simp only [List.find?_cons, hxf] at h
        simp only [List.find?_cons, hxf]
        exact ih a h

theorem processAction_ok_spec {s s2 : CoreState} {aid : Nat}
    (h : processAction aid s = Except.ok s2) :
    s2.actions = markProcessed aid s.actions ∧
    ∃ a, s.actions.find? (fun x => x.id == aid) = some a ∧
      a.processed = false := by
  unfold processAction at h
  cases hfind : s.actions.find? (fun x => x.id == aid) with
  | none => rw [hfind] at h; cases h
  | some a =>
      rw [hfind] at h
      simp only at h
      by_cases hproc : a.processed = true
      · rw [if_pos hproc] at h
        cases h
      · rw [if_neg hproc] at h
        have hpf : a.processed = false := by
          cases hp : a.processed
          · rfl
          · exact absurd hp hproc
        cases hkind : a.kind with
        | SPLIT =>
            rw [hkind] at h
            simp only at h
            by_cases hfac : 0 < a.factor
            · rw [if_pos hfac] at h
              simp only [Except.ok.injEq] at h
              subst h
              exact ⟨rfl, a, rfl, hpf⟩
            · rw [if_neg hfac] at h
              cases h
        | CASH_DIVIDEND =>
            rw [hkind] at h
            simp only [Except.ok.injEq] at h
            subst h
            exact ⟨rfl, a, rfl, hpf⟩

end Core

/-! ## C4 -/

/-- C4: FIFO close on the spec scenario: lots (qty 10, cost 100, opened t1)
and (qty 10, cost 120, opened t2); closing quantity 15 consumes all of the
t1 lot (in date order, lot id as tie-break) and then 5 units of the t2 lot,
and for every proceeds value the realized P&L is
proceeds - (10 * 10 + 5 * 12) = proceeds - 160. -/
theorem c4_fifo_consumption (p : ℚ) :
    Core.close_quantity 1 1 15 p c4Lots =
      Except.ok (p - 160,
        [⟨1, 1, 1, 1, 10, 0, 10, 100⟩, ⟨2, 1, 1, 2, 10, 5, 12, 120⟩],
        [(1, 10), (2, 5)]) := by
  norm_num [Core.close_quantity, Core.consume, Core.sortLots, Core.insertLot,
    Core.lotLE, Core.lotAt, Core.lotOpen, c4Lots]

/-! ## C5 -/

/-- C5: processing a SPLIT action with positive ratio r scales every open
lot of the instrument: quantity_opened and quantity_remaining are
multiplied by r, cost_per_unit is divided by r, and cost_total is left
unchanged. -/
theorem c5_split_scales_lots (s : Core.CoreState) (aid : Nat)
    (a : Core.CorporateAction)
    (hfind : s.actions.find? (fun x => x.id == aid) = some a)
    (hkind : a.kind = Core.CAKind.SPLIT)
    (hproc : a.processed = false)
    (hfac : 0 < a.factor) :
    ∃ s2, Core.processAction aid s = Except.ok s2 ∧
      ∀ l ∈ s.lots, l.instrument = a.instrument →
        l.quantity_remaining ≠ 0 →
        ∃ l2 ∈ s2.lots, l2.id = l.id ∧
          l2.quantity_opened = a.factor * l.quantity_opened ∧
          l2.quantity_remaining = a.factor * l.quantity_remaining ∧
          l2.cost_per_unit = l.cost_per_unit / a.factor ∧
          l2.cost_total = l.cost_total := by
  unfold Core.processAction
  rw [hfind]
  simp only
  rw [if_neg (by rw [hproc]; exact Bool.false_ne_true)]
  rw [hkind]
  simp only
  rw [if_pos hfac]
  refine ⟨_, rfl, ?_⟩
  intro l hl hinstr hrem
  refine ⟨Core.splitLot a.instrument a.factor l,
    List.mem_map_of_mem _ hl, ?_, ?_, ?_, ?_, ?_⟩
  · exact (Core.splitLot_static _ _ l).1
  · unfold Core.splitLot
    rw [if_pos ⟨hinstr, hrem⟩]
  · unfold Core.splitLot
    rw [if_pos ⟨hinstr, hrem⟩]
  · unfold Core.splitLot
    rw [if_pos ⟨hinstr, hrem⟩]
  · exact (Core.splitLot_static _ _ l).2.2.2

/-- Witness for `c5_split_scales_lots`: the ratio-2 split on a lot of 10
units with cost_total 1000 (cost_per_unit 100) yields a lot with 20 units,
cost_total 1000, cost_per_unit 50. -/
theorem c5_split_scales_lots_witness :
    ((Core.applyOp (Core.Op.processOp 1) c5State).lots.any (fun l =>
      decide (l.quantity_opened = 20 ∧ l.quantity_remaining = 20 ∧
        l.cost_per_unit = 50 ∧ l.cost_total = 1000))) = true := by
  obtain ⟨s2, hok, hall⟩ :=
    c5_split_scales_lots c5State 1 c5Act rfl rfl rfl
      (by norm_num [c5Act])
  obtain ⟨l2, hmem, hid, hop, hrem, hcpu, hct⟩ :=
    hall c5Lot (by simp [c5State]) rfl (by norm_num [c5Lot])
  have hs2 : Core.applyOp (Core.Op.processOp 1) c5State = s2 := by
    have hrun : Core.runOp (Core.Op.processOp 1) c5State = Except.ok s2 := hok
    unfold Core.applyOp
    rw [hrun]
  rw [hs2, List.any_eq_true]
  refine ⟨l2, hmem, ?_⟩
  rw [decide_eq_true_eq]
  refine ⟨?_, ?_, ?_, ?_⟩
  · rw [hop]
    norm_num [c5Act, c5Lot]
  · rw [hrem]
    norm_num [c5Act, c5Lot]
  · rw [hcpu]
    norm_num [c5Act, c5Lot]
  · rw [hct]
    norm_num [c5Lot]

/-! ## C6 -/

/-- C6: after every sequence of post, unpost, and corporate-action process
operations (failed operations leave the state unchanged), every lot
satisfies 0 ≤ quantity_remaining ≤ quantity_opened, the open-lot quantity
of every instrument+account position equals the net BUY − SELL quantity
replayed from the posted trade lines, and the reconciliation check reports
no mismatch. -/
theorem c6_reconciliation_invariant (s : Core.CoreState)
    (h : Core.CoreReach s) :
    (∀ l ∈ s.lots, 0 ≤ l.quantity_remaining ∧
      l.quantity_remaining ≤ l.quantity_opened) ∧
    (∀ instr acct, Core.sumRemAt instr acct s.lots =
      Core.netAt instr acct s.txns) ∧
    Core.reconcile s = true := by
  obtain ⟨hb, hrec, hids⟩ := Core.inv_reach h
  exact ⟨hb, hrec, Core.reconcile_of_reconciled hrec⟩

/-- Witness for `c6_reconciliation_invariant`: the reconciliation check
passes on the state reached by buying 10 units and selling 4 of them. -/
theorem c6_reconciliation_invariant_witness :
    Core.reconcile c6State = true :=
  (c6_reconciliation_invariant c6State
    (Core.CoreReach.step (Core.Op.sell 1 2 4 60 5)
      (Core.CoreReach.step (Core.Op.buy 1 2 10 100 1)
        Core.CoreReach.init))).2.2

/-! ## C7 -/

/-- C7: `process` succeeds exactly once per corporate-action id: when the
first call succeeds, a second call on the resulting state fails with
`AlreadyProcessed` and leaves the state unchanged (so the state is the one
produced by the single successful call). -/
theorem c7_process_idempotent (s s2 : Core.CoreState) (aid : Nat)
    (h : Core.processAction aid s = Except.ok s2) :
    Core.processAction aid s2 =
      Except.error Core.CoreError.alreadyProcessed ∧
    Core.applyOp (Core.Op.processOp aid) s2 = s2 := by
  obtain ⟨hacts, a, hfind, hproc⟩ := Core.processAction_ok_spec h
  have hfind2 : s2.actions.find? (fun x => x.id == aid) =
      some { a with processed := true } := by
    rw [hacts]
    exact Core.find_markProcessed aid s.actions a hfind
  have herr : Core.processAction aid s2 =
      Except.error Core.CoreError.alreadyProcessed := by
    unfold Core.processAction
    rw [hfind2]
    simp only
    simp
  refine ⟨herr, ?_⟩
  have hrun : Core.runOp (Core.Op.processOp aid) s2 =
      Except.error Core.CoreError.alreadyProcessed := herr
  unfold Core.applyOp
  rw [hrun]

/-- Witness for `c7_process_idempotent`: processing the concrete dividend
action once marks it processed; the second call fails with
`AlreadyProcessed` and keeps the state. -/
theorem c7_process_idempotent_witness :
    Core.processAction 1 c7State2 =
      Except.error Core.CoreError.alreadyProcessed ∧
    Core.applyOp (Core.Op.processOp 1) c7State2 = c7State2 :=
  c7_process_idempotent c7State c7State2 1 rfl
